import Mathlib

set_option maxRecDepth 100000

/-!
Verification development for the CPU Scheduling Visualizer core.

The definitions below are a shallow embedding of the simulator sources:
  * `src/core/PCB.js`        — process control block, burst sequences;
  * `src/core/Queues.js`     — ready queue, I/O queue, MLFQ structure;
  * `src/utils/schedulerUtils.js` — consolidation, metrics, validation;
  * `src/algorithms/index.js`     — the per-tick engine and the seven
    non-MLFQ disciplines plus the MLFQ loop.

Modelling conventions:
  * JavaScript numbers holding ticks, durations, priorities and pids are
    modelled as `Int`; metric values produced by floating-point division
    are modelled exactly over `ℚ`.
  * JavaScript object identity (queues hold references into the cloned
    process array) is modelled by storing processes in a single list and
    letting queues hold indices into it.
  * `Array.prototype.sort` with a consistent comparator is a stable sort;
    it is modelled by the stable insertion sort `jsSort` below, with
    `le a b` standing for `comparator(a,b) <= 0`.
  * The metrics object returned by `calculateMetrics` is modelled as an
    association list from field name to value, preserving the field order
    of the object literal.
  * The `uuid` field `id` of a PCB and the `onTick` display callback have
    no influence on any result component and are omitted.
-/

/-- Stable insertion of `a` into `l`: `a` is placed before the first
element `b` for which `le a b` holds, hence after every element that the
comparator does not order strictly after `a`. -/
def jsInsert (le : α → α → Bool) (a : α) : List α → List α
  | [] => [a]
  | b :: l => if le a b then a :: b :: l else b :: jsInsert le a l

/-- Stable sort modelling `Array.prototype.sort` with comparator `c`,
where `le a b` means `c a b ≤ 0`. -/
def jsSort (le : α → α → Bool) : List α → List α
  | [] => []
  | a :: l => jsInsert le a (jsSort le l)

theorem jsInsert_perm (le : α → α → Bool) (a : α) (l : List α) :
    (jsInsert le a l).Perm (a :: l) := by
  induction l with
  | nil => exact List.Perm.refl _
  | cons b t ih =>
    by_cases h : le a b = true
    · simp [jsInsert, h]
    · simp only [jsInsert, if_neg h]
      exact (ih.cons b).trans (List.Perm.swap a b t)

theorem jsSort_perm (le : α → α → Bool) (l : List α) :
    (jsSort le l).Perm l := by
  induction l with
  | nil => exact List.Perm.refl _
  | cons a t ih =>
    exact (jsInsert_perm le a (jsSort le t)).trans (ih.cons a)

theorem mem_jsSort (le : α → α → Bool) (l : List α) (a : α) :
    a ∈ jsSort le l ↔ a ∈ l :=
  (jsSort_perm le l).mem_iff

theorem length_jsSort (le : α → α → Bool) (l : List α) :
    (jsSort le l).length = l.length :=
  (jsSort_perm le l).length_eq

theorem pairwise_jsInsert (le : α → α → Bool)
    (htot : ∀ a b, le a b = true ∨ le b a = true)
    (htrans : ∀ a b c, le a b = true → le b c = true → le a c = true)
    (a : α) (l : List α)
    (hl : l.Pairwise (fun x y => le x y = true)) :
    (jsInsert le a l).Pairwise (fun x y => le x y = true) := by
  induction l with
  | nil => simp [jsInsert]
  | cons b t ih =>
    rcases List.pairwise_cons.mp hl with ⟨hb, ht⟩
    by_cases h : le a b = true
    · simp only [jsInsert, if_pos h]
      refine List.pairwise_cons.mpr ⟨?_, hl⟩
      intro y hy
      rcases List.mem_cons.mp hy with rfl | hy2
      · exact h
      · exact htrans a b y h (hb y hy2)
    · simp only [jsInsert, if_neg h]
      refine List.pairwise_cons.mpr ⟨?_, ih ht⟩
      intro y hy
      rcases List.mem_cons.mp ((jsInsert_perm le a t).mem_iff.mp hy) with rfl | hy2
      · exact (htot y b).resolve_left h
      · exact hb y hy2

theorem pairwise_jsSort (le : α → α → Bool)
    (htot : ∀ a b, le a b = true ∨ le b a = true)
    (htrans : ∀ a b c, le a b = true → le b c = true → le a c = true)
    (l : List α) :
    (jsSort le l).Pairwise (fun x y => le x y = true) := by
  induction l with
  | nil => simp [jsSort]
  | cons a t ih => exact pairwise_jsInsert le htot htrans a (jsSort le t) ih

/-! ## Data model (src/core/PCB.js) -/

/-- Burst types (`BurstType` in PCB.js). -/
inductive BurstType
  | CPU
  | IOB
deriving DecidableEq, Repr

/-- Process states (`ProcessState` in PCB.js). -/
inductive ProcessState
  | NEW
  | READY
  | RUNNING
  | WAITING
  | TERMINATED
deriving DecidableEq, Repr

/-- One typed burst of the burst sequence. -/
structure Burst where
  type : BurstType
  duration : Int
deriving DecidableEq, Repr

/-- Builds a CPU burst literal. -/
def cpuBurstOf (d : Int) : Burst := ⟨ BurstType.CPU, d⟩

/-- Builds an I/O burst literal. -/
def ioBurstOf (d : Int) : Burst := ⟨ BurstType.IOB, d⟩

/-- Process control block (`class PCB`).  The `uuid` field `id` is
omitted; object identity is the index into the engine's process list. -/
structure PCB where
  pid : Int
  arrivalTime : Int
  originalPriority : Int
  priority : Int
  burstSequence : List Burst
  state : ProcessState
  currentBurstIndex : Nat
  remainingBurstTime : Int
  waitTime : Int
  responseTime : Int
  completionTime : Int
  lastReadyTime : Int
  currentQueueLevel : Nat
deriving DecidableEq, Repr

/-- Placeholder PCB used for out-of-range list indexing; reachable code
never indexes out of range. -/
def dummyPCB : PCB :=
  ⟨0, 0, 0, 0, [], ProcessState.NEW, 0, 0, 0, -1, -1, -1, 0⟩

/-- The PCB constructor: static fields from the arguments, dynamic fields
to their initial values (`constructor` in PCB.js). -/
def mkPCB (pid arrivalTime priority : Int) (burstSequence : List Burst) : PCB :=
  { pid := pid
    arrivalTime := arrivalTime
    originalPriority := priority
    priority := priority
    burstSequence := burstSequence
    state := ProcessState.NEW
    currentBurstIndex := 0
    remainingBurstTime := match burstSequence with
      | [] => 0
      | b :: _ => b.duration
    waitTime := 0
    responseTime := -1
    completionTime := -1
    lastReadyTime := -1
    currentQueueLevel := 0 }

/-- Derived static total CPU time: sum of the CPU-burst durations
(`totalCpuBurstTime` computed in the PCB constructor). -/
def PCB.totalCpuBurstTime (p : PCB) : Int :=
  (p.burstSequence.filter (fun b => b.type == BurstType.CPU)).foldl
    (fun sum b => sum + b.duration) 0

/-- Current burst type, `null` past the end (`getCurrentBurstType`). -/
def PCB.getCurrentBurstType (p : PCB) : Option BurstType :=
  match p.burstSequence.get? p.currentBurstIndex with
  | none => none
  | some b => some b.type

/-- Execute one time unit (`executeTick`): decrement the remaining time
if positive, and report whether it is now zero. -/
def PCB.executeTick (p : PCB) : PCB × Bool :=
  let p2 := if p.remainingBurstTime > 0 then
    { p with remainingBurstTime := p.remainingBurstTime - 1 } else p
  (p2, p2.remainingBurstTime == 0)

/-- Advance to the next burst (`moveToNextBurst`): increment the index;
report `false` past the end, otherwise load the new burst's duration. -/
def PCB.moveToNextBurst (p : PCB) : PCB × Bool :=
  let idx := p.currentBurstIndex + 1
  match p.burstSequence.get? idx with
  | none => ({ p with currentBurstIndex := idx }, false)
  | some b => ({ p with currentBurstIndex := idx, remainingBurstTime := b.duration }, true)

/-- Turnaround time (`getTurnaroundTime`). -/
def PCB.getTurnaroundTime (p : PCB) : Int :=
  if p.completionTime == -1 then -1 else p.completionTime - p.arrivalTime

/-- Waiting time (`getWaitingTime`). -/
def PCB.getWaitingTime (p : PCB) : Int :=
  let t := p.getTurnaroundTime
  if t == -1 then -1 else t - p.totalCpuBurstTime

/-- Completion test (`isComplete`). -/
def PCB.isComplete (p : PCB) : Bool :=
  p.currentBurstIndex ≥ p.burstSequence.length

/-- Aging step (`applyAging` on a PCB): decrease a positive priority by
the boost, but not below zero. -/
def PCB.applyAging (p : PCB) (agingBoost : Int) : PCB :=
  if p.priority > 0 then { p with priority := max 0 (p.priority - agingBoost) } else p

/-- Per-process I/O specification from the input form
(`{afterCpu, duration}` entries of `ioBursts`). -/
structure IOBurstSpec where
  afterCpu : Int
  duration : Int
deriving DecidableEq, Repr

/-- Comparator `(a, b) => a.afterCpu - b.afterCpu` as a `≤` test. -/
def afterCpuLe (a b : IOBurstSpec) : Bool := a.afterCpu ≤ b.afterCpu

/-- Loop body of `createSimplePCB`: walk the sorted I/O list, splitting
CPU time at each `afterCpu` point.  `consumed` is `cpuConsumed`; the
returned `Int` is the final `cpuConsumed` (so that the caller's
`remainingCpu = cpuBurst - cpuConsumed`). -/
def buildBursts (consumed : Int) : List IOBurstSpec → List Burst × Int
  | [] => ([], consumed)
  | iob :: rest =>
    let before := iob.afterCpu - consumed
    if before > 0 then
      let res := buildBursts iob.afterCpu rest
      (cpuBurstOf before :: ioBurstOf iob.duration :: res.1, res.2)
    else
      let res := buildBursts consumed rest
      (ioBurstOf iob.duration :: res.1, res.2)

/-- Burst sequence built by `createSimplePCB` for the given total CPU
time and I/O list. -/
def simpleBurstSequence (cpuBurst : Int) (ioBursts : List IOBurstSpec) : List Burst :=
  match ioBursts with
  | [] => [cpuBurstOf cpuBurst]
  | _ =>
    let sortedIO := jsSort afterCpuLe ioBursts
    let res := buildBursts 0 sortedIO
    let remainingCpu := cpuBurst - res.2
    if remainingCpu > 0 then res.1 ++ [cpuBurstOf remainingCpu] else res.1

/-- Factory `createSimplePCB(pid, arrivalTime, cpuBurst, priority, ioBursts)`. -/
def createSimplePCB (pid arrivalTime cpuBurst priority : Int)
    (ioBursts : List IOBurstSpec) : PCB :=
  mkPCB pid arrivalTime priority (simpleBurstSequence cpuBurst ioBursts)

/-! ## Queues over a process store (src/core/Queues.js)

Queues hold indices into the engine's process list (JS object references
into the cloned process array).  Sorting comparators read the referenced
PCB values. -/

/-- Read the process at index `i` of the store. -/
def getP (procs : List PCB) (i : Nat) : PCB :=
  procs.getD i dummyPCB

/-- Apply `f` to the process at index `i` of the store (mutation of the
shared object all queues reference). -/
def setP (procs : List PCB) (i : Nat) (f : PCB → PCB) : List PCB :=
  procs.modify f i

/-- Comparator of `sortByArrival`: arrival time, tie-break by pid. -/
def arrivalLe (a b : PCB) : Bool :=
  if a.arrivalTime != b.arrivalTime then a.arrivalTime < b.arrivalTime
  else a.pid ≤ b.pid

/-- Comparator of `sortByBurstTime`: remaining burst time, then arrival
time, then pid. -/
def burstTimeLe (a b : PCB) : Bool :=
  if a.remainingBurstTime != b.remainingBurstTime then
    a.remainingBurstTime < b.remainingBurstTime
  else if a.arrivalTime != b.arrivalTime then a.arrivalTime < b.arrivalTime
  else a.pid ≤ b.pid

/-- Comparator of `sortByPriority`: priority (lower number first), then
arrival time, then pid. -/
def priorityLe (a b : PCB) : Bool :=
  if a.priority != b.priority then a.priority < b.priority
  else if a.arrivalTime != b.arrivalTime then a.arrivalTime < b.arrivalTime
  else a.pid ≤ b.pid

/-- HRRN response ratio `(W + S) / S` of `sortByResponseRatio`, with the
floating-point division modelled exactly over `ℚ`. -/
def ratioOf (currentTime : Int) (p : PCB) : ℚ :=
  (((currentTime - p.arrivalTime) + p.remainingBurstTime : Int) : ℚ) /
    ((p.remainingBurstTime : Int) : ℚ)

/-- Comparator of `sortByResponseRatio`: higher ratio first, then arrival
time, then pid. -/
def responseRatioLe (currentTime : Int) (a b : PCB) : Bool :=
  if ratioOf currentTime a != ratioOf currentTime b then
    ratioOf currentTime b < ratioOf currentTime a
  else if a.arrivalTime != b.arrivalTime then a.arrivalTime < b.arrivalTime
  else a.pid ≤ b.pid

/-- Sort the index queue by a PCB comparator over the store. -/
def sortQueueBy (le : PCB → PCB → Bool) (procs : List PCB) (queue : List Nat) :
    List Nat :=
  jsSort (fun i j => le (getP procs i) (getP procs j)) queue

/-- `ReadyQueue.enqueue`: set the state to READY and append at the tail. -/
def readyEnqueue (procs : List PCB) (queue : List Nat) (i : Nat) :
    List PCB × List Nat :=
  (setP procs i (fun p => { p with state := ProcessState.READY }), queue ++ [i])

/-- Aging of one queue entry in `ReadyQueue.applyAging`: a process that
has an `lastReadyTime` is aged by `floor(timeInQueue / interval) * boost`
when at least one full interval has elapsed.  `Math.floor` of the float
division is the flooring integer division `Int.fdiv`. -/
def agePCB (currentTime agingInterval agingBoost : Int) (p : PCB) : PCB :=
  if p.lastReadyTime != -1 then
    let timeInQueue := currentTime - p.lastReadyTime
    let agingUnits := Int.fdiv timeInQueue agingInterval
    if agingUnits > 0 then p.applyAging (agingBoost * agingUnits) else p
  else p

/-- `ReadyQueue.applyAging`: age every queued process. -/
def readyApplyAging (procs : List PCB) (queue : List Nat)
    (currentTime agingInterval agingBoost : Int) : List PCB :=
  queue.foldl (fun acc i =>
    setP acc i (agePCB currentTime agingInterval agingBoost)) procs

/-- `ReadyQueue.incrementWaitTime`: bump `waitTime` of every queued
process. -/
def readyIncrementWaitTime (procs : List PCB) (queue : List Nat) : List PCB :=
  queue.foldl (fun acc i => setP acc i (fun p => { p with waitTime := p.waitTime + 1 })) procs

/-- `IOQueue.enqueue`: set the state to WAITING and record the pair
`{process, remainingIOTime := process.remainingBurstTime}`. -/
def ioQueueEnqueue (procs : List PCB) (queue : List (Nat × Int)) (i : Nat) :
    List PCB × List (Nat × Int) :=
  ((setP procs i (fun p => { p with state := ProcessState.WAITING })),
    queue ++ [(i, (getP procs i).remainingBurstTime)])

/-- `IOQueue.tick`: decrement every entry's remaining I/O time; entries
reaching zero advance their PCB to the next burst, leave the queue and
are reported (in queue order). -/
def ioQueueTick (procs : List PCB) : List (Nat × Int) →
    List PCB × List (Nat × Int) × List Nat
  | [] => (procs, [], [])
  | (i, r) :: rest =>
    let r2 := r - 1
    if r2 ≤ 0 then
      let procs2 := setP procs i (fun p => (p.moveToNextBurst).1)
      let res := ioQueueTick procs2 rest
      (res.1, res.2.1, i :: res.2.2)
    else
      let res := ioQueueTick procs rest
      (res.1, (i, r2) :: res.2.1, res.2.2)

/-! ## Shared utilities (src/utils/schedulerUtils.js) -/

/-- Timeline entry kinds. -/
inductive GanttType
  | PROCESS
  | IDLE
  | CONTEXT_SWITCH
deriving DecidableEq, Repr

/-- One raw per-tick timeline entry.  `queueLevel` is only set by the
MLFQ loop and is `none` (JS `undefined`) elsewhere. -/
structure GanttEntry where
  time : Int
  type : GanttType
  pid : Option Int
  queueLevel : Option Nat
deriving DecidableEq, Repr

/-- One consolidated timeline block (`{...entry, startTime, endTime,
duration}`). -/
structure ConsolidatedEntry where
  time : Int
  type : GanttType
  pid : Option Int
  queueLevel : Option Nat
  startTime : Int
  endTime : Int
  duration : Int
deriving DecidableEq, Repr

/-- Walk of `consolidateGanttChart`: coalesce an adjacent entry into the
last block when `(type, pid, queueLevel)` all match. -/
def consolidateStep (acc : List ConsolidatedEntry) (e : GanttEntry) :
    List ConsolidatedEntry :=
  match acc.getLast? with
  | some last =>
    if last.type == e.type && last.pid == e.pid && last.queueLevel == e.queueLevel then
      acc.dropLast ++ [{ last with endTime := e.time + 1, duration := last.duration + 1 }]
    else
      acc ++ [⟨e.time, e.type, e.pid, e.queueLevel, e.time, e.time + 1, 1⟩]
  | none => acc ++ [⟨e.time, e.type, e.pid, e.queueLevel, e.time, e.time + 1, 1⟩]

/-- `consolidateGanttChart`: merge consecutive same-process ticks. -/
def consolidateGanttChart (rawGanttChart : List GanttEntry) : List ConsolidatedEntry :=
  rawGanttChart.foldl consolidateStep []

/-- `calculateMetrics`: the metrics object, modelled as an association
list in the field order of the object literal, all values over `ℚ`. -/
def calculateMetrics (processes : List PCB) (ganttChart : List GanttEntry)
    (totalTime cpuBusyTime : Int) : List (String × ℚ) :=
  let completedProcs := processes.filter (fun p => p.state == ProcessState.TERMINATED)
  let count : Int := completedProcs.length
  let avgTurnaroundTime : ℚ :=
    if completedProcs.length > 0 then
      ((completedProcs.foldl (fun sum p => sum + p.getTurnaroundTime) 0 : Int) : ℚ) / (count : ℚ)
    else 0
  let avgWaitingTime : ℚ :=
    if completedProcs.length > 0 then
      ((completedProcs.foldl (fun sum p => sum + p.getWaitingTime) 0 : Int) : ℚ) / (count : ℚ)
    else 0
  let avgResponseTime : ℚ :=
    if completedProcs.length > 0 then
      ((completedProcs.foldl (fun sum p => sum + p.responseTime) 0 : Int) : ℚ) / (count : ℚ)
    else 0
  let cpuUtilization : ℚ :=
    if totalTime > 0 then ((cpuBusyTime : ℚ) / (totalTime : ℚ)) * 100 else 0
  let throughput : ℚ :=
    if totalTime > 0 then (count : ℚ) / (totalTime : ℚ) else 0
  [("avgTurnaroundTime", avgTurnaroundTime),
   ("avgWaitingTime", avgWaitingTime),
   ("avgResponseTime", avgResponseTime),
   ("cpuUtilization", cpuUtilization),
   ("throughput", throughput),
   ("totalTime", (totalTime : ℚ)),
   ("contextSwitches",
     ((ganttChart.filter (fun e => e.type == GanttType.CONTEXT_SWITCH)).length : ℚ))]

/-- One row of the process input form. -/
structure ProcessInput where
  pid : Int
  arrivalTime : Int
  cpuBurst : Int
  priority : Int
  ioEnabled : Bool
  ioBursts : List IOBurstSpec
deriving DecidableEq, Repr

/-- Duplicate-position walk of `validateProcessInputs`: one message per
adjacent pair of the `afterCpu`-sorted list sharing the same `afterCpu`. -/
def dupMessages (pid : Int) : List IOBurstSpec → List String
  | a :: b :: rest =>
    (if b.afterCpu == a.afterCpu then
      ["P" ++ toString pid ++ ": Multiple I/O bursts at the same CPU position (" ++
        toString b.afterCpu ++ ")."]
    else []) ++ dupMessages pid (b :: rest)
  | _ => []

/-- Error messages contributed by a single process row of
`validateProcessInputs`.  An `ioBursts` array is always present and
truthy in the caller, so the JS guard `p.ioEnabled && p.ioBursts`
reduces to `p.ioEnabled`. -/
def processInputErrors (p : ProcessInput) : List String :=
  (if p.cpuBurst ≤ 0 then
    ["P" ++ toString p.pid ++ ": CPU burst must be greater than 0."] else []) ++
  (if p.arrivalTime < 0 then
    ["P" ++ toString p.pid ++ ": Arrival time cannot be negative."] else []) ++
  (if p.ioEnabled then
    (p.ioBursts.enum.foldl (fun errs pair =>
      errs ++
      ((if pair.2.afterCpu < 0 ∨ pair.2.afterCpu > p.cpuBurst then
        ["P" ++ toString p.pid ++ " I/O #" ++ toString (pair.1 + 1) ++
          ": \"After CPU\" value must be between 0 and " ++ toString p.cpuBurst ++ "."]
      else []) ++
      (if pair.2.duration ≤ 0 then
        ["P" ++ toString p.pid ++ " I/O #" ++ toString (pair.1 + 1) ++
          ": Duration must be greater than 0."]
      else []))) []) ++
    dupMessages p.pid (jsSort afterCpuLe p.ioBursts)
  else [])

/-- `validateProcessInputs`: returns `{valid, errors}`. -/
def validateProcessInputs (processInputs : List ProcessInput) : Bool × List String :=
  match processInputs with
  | [] => (false, ["At least one process is required."])
  | _ =>
    let errors := processInputs.foldl (fun errs p => errs ++ processInputErrors p) []
    (errors.isEmpty, errors)

/-! ## Simulation engine (runSchedulerSimulation in src/algorithms/index.js) -/

/-- One recorded state transition.  The JS fields `from`/`to` are Lean
keywords and are rendered `fromState`/`toState`. -/
structure Transition where
  time : Int
  pid : Int
  fromState : ProcessState
  toState : ProcessState
deriving DecidableEq, Repr

/-- Engine loop state: the local variables of `runSchedulerSimulation`. -/
structure SimState where
  procs : List PCB
  readyQueue : List Nat
  ioQueue : List (Nat × Int)
  ganttChart : List GanttEntry
  stateTransitions : List Transition
  currentTime : Int
  runningProcess : Option Nat
  timeInCurrentBurst : Int
  completedCount : Nat
  cpuBusyTime : Int
  contextSwitchRemaining : Int
  processArrivalIndex : Nat
deriving DecidableEq, Repr

/-- Defunctionalised algorithm closures handed to the engine: the
`selectNext` function (which may mutate the store by aging and reorders
the ready queue, whose head is then dequeued) and the `checkPreemption`
function, together with the `preemptive` and `timeQuantum` options. -/
structure AlgSpec where
  preemptive : Bool
  timeQuantum : Option Int
  select : List PCB → List Nat → Int → List PCB × List Nat
  checkPreempt : List PCB → List Nat → Nat → Int → List PCB × Bool

/-- Step 1, new arrivals: admit every not-yet-seen process whose arrival
time has been reached.  The `while` loop advances `processArrivalIndex`
at least once per round, so `procs.length` rounds of fuel always
suffice. -/
def admitArrivals : Nat → SimState → SimState
  | 0, s => s
  | fuel + 1, s =>
    if s.processArrivalIndex < s.procs.length ∧
        (getP s.procs s.processArrivalIndex).arrivalTime ≤ s.currentTime then
      let i := s.processArrivalIndex
      let pid := (getP s.procs i).pid
      let procs1 := setP s.procs i (fun p =>
        { p with
          state := ProcessState.READY
          lastReadyTime := s.currentTime })
      let (procs2, rq) := readyEnqueue procs1 s.readyQueue i
      admitArrivals fuel
        { s with
          procs := procs2
          readyQueue := rq
          stateTransitions := s.stateTransitions ++
            [⟨s.currentTime, pid, ProcessState.NEW, ProcessState.READY⟩]
          processArrivalIndex := i + 1 }
    else s

/-- Body of the loop over completed I/O processes in step 2: a process
that is not complete is re-admitted to the ready queue; a complete one is
left untouched. -/
def ioReadmission (st : SimState) (i : Nat) : SimState :=
  if (getP st.procs i).isComplete then st
  else
    let pid := (getP st.procs i).pid
    let procs3 := setP st.procs i (fun p => { p with lastReadyTime := st.currentTime })
    let (procs4, rq) := readyEnqueue procs3 st.readyQueue i
    { st with
      procs := procs4
      readyQueue := rq
      stateTransitions := st.stateTransitions ++
        [⟨st.currentTime, pid, ProcessState.WAITING, ProcessState.READY⟩] }

/-- Step 2, I/O completions: tick the I/O queue, then re-admit every
completed process that still has bursts left. -/
def ioCompletionPhase (s : SimState) : SimState :=
  let ticked := ioQueueTick s.procs s.ioQueue
  ticked.2.2.foldl ioReadmission
    { s with
      procs := ticked.1
      ioQueue := ticked.2.1 }

/-- Steps 4–6, preemption: consult the preemption predicate and the time
quantum, and on preemption re-enqueue the running process. -/
def preemptionPhase (alg : AlgSpec) (contextSwitchTime : Int) (s : SimState) :
    SimState :=
  let checkRes : List PCB × Bool :=
    match s.runningProcess with
    | some r =>
      if alg.preemptive then alg.checkPreempt s.procs s.readyQueue r s.currentTime
      else (s.procs, false)
    | none => (s.procs, false)
  let s1 := { s with procs := checkRes.1 }
  let shouldPreempt : Bool := checkRes.2 ||
    (match s1.runningProcess, alg.timeQuantum with
     | some _, some q => decide (s1.timeInCurrentBurst ≥ q)
     | _, _ => false)
  match s1.runningProcess with
  | none => s1
  | some r =>
    if shouldPreempt then
      let pid := (getP s1.procs r).pid
      let procs2 := setP s1.procs r (fun p =>
        { p with
          state := ProcessState.READY
          lastReadyTime := s1.currentTime })
      let (procs3, rq) := readyEnqueue procs2 s1.readyQueue r
      { s1 with
        procs := procs3
        readyQueue := rq
        stateTransitions := s1.stateTransitions ++
          [⟨s1.currentTime, pid, ProcessState.RUNNING, ProcessState.READY⟩]
        runningProcess := none
        timeInCurrentBurst := 0
        contextSwitchRemaining :=
          if contextSwitchTime > 0 then contextSwitchTime else s1.contextSwitchRemaining }
    else s1

/-- Step 7, selection: when the CPU is free and the ready queue is not
empty, let the policy reorder the queue and dispatch its head. -/
def selectionPhase (alg : AlgSpec) (s : SimState) : SimState :=
  match s.runningProcess with
  | some _ => s
  | none =>
    if s.readyQueue.isEmpty then s
    else
      let sel := alg.select s.procs s.readyQueue s.currentTime
      match sel.2 with
      | [] =>
        { s with
          procs := sel.1
          readyQueue := [] }
      | r :: rest =>
        let pid := (getP sel.1 r).pid
        let procs2 := setP sel.1 r (fun p =>
          { p with
            state := ProcessState.RUNNING
            responseTime := if p.responseTime == -1 then
              s.currentTime - p.arrivalTime else p.responseTime })
        { s with
          procs := procs2
          readyQueue := rest
          runningProcess := some r
          timeInCurrentBurst := 0
          stateTransitions := s.stateTransitions ++
            [⟨s.currentTime, pid, ProcessState.READY, ProcessState.RUNNING⟩] }

/-- Step 8, execute or idle: run one tick of the dispatched process,
handling burst completion (termination or move to I/O), or record an
idle tick. -/
def executePhase (contextSwitchTime : Int) (s : SimState) : SimState :=
  match s.runningProcess with
  | none =>
    { s with ganttChart := s.ganttChart ++
        [⟨s.currentTime, GanttType.IDLE, none, none⟩] }
  | some r =>
    let pid := (getP s.procs r).pid
    let entry : GanttEntry := ⟨s.currentTime, GanttType.PROCESS, some pid, none⟩
    let s1 := { s with
      ganttChart := s.ganttChart ++ [entry]
      cpuBusyTime := s.cpuBusyTime + 1 }
    let exec := (getP s1.procs r).executeTick
    let s2 := { s1 with
      procs := setP s1.procs r (fun _ => exec.1)
      timeInCurrentBurst := s1.timeInCurrentBurst + 1 }
    if exec.2 then
      let move := (getP s2.procs r).moveToNextBurst
      let s3 := { s2 with procs := setP s2.procs r (fun _ => move.1) }
      let s4 :=
        if !move.2 then
          { s3 with
            procs := setP s3.procs r (fun p =>
              { p with
                completionTime := s3.currentTime + 1
                state := ProcessState.TERMINATED })
            completedCount := s3.completedCount + 1
            stateTransitions := s3.stateTransitions ++
              [⟨s3.currentTime + 1, pid, ProcessState.RUNNING, ProcessState.TERMINATED⟩] }
        else if (getP s3.procs r).getCurrentBurstType == some BurstType.IOB then
          let enq := ioQueueEnqueue s3.procs s3.ioQueue r
          { s3 with
            procs := enq.1
            ioQueue := enq.2
            stateTransitions := s3.stateTransitions ++
              [⟨s3.currentTime + 1, pid, ProcessState.RUNNING, ProcessState.WAITING⟩] }
        else s3
      { s4 with
        runningProcess := none
        timeInCurrentBurst := 0
        contextSwitchRemaining :=
          if contextSwitchTime > 0 ∧ s4.completedCount < s4.procs.length then
            contextSwitchTime
          else s4.contextSwitchRemaining }
    else s2

/-- One iteration of the engine's `while` loop. -/
def simStep (alg : AlgSpec) (contextSwitchTime : Int) (s0 : SimState) : SimState :=
  let s1 := admitArrivals s0.procs.length s0
  let s2 := ioCompletionPhase s1
  if s2.contextSwitchRemaining > 0 then
    { s2 with
      contextSwitchRemaining := s2.contextSwitchRemaining - 1
      ganttChart := s2.ganttChart ++
        [⟨s2.currentTime, GanttType.CONTEXT_SWITCH, none, none⟩]
      currentTime := s2.currentTime + 1 }
  else
    let s3 := preemptionPhase alg contextSwitchTime s2
    let s4 := selectionPhase alg s3
    let s5 := executePhase contextSwitchTime s4
    let s6 := { s5 with procs := readyIncrementWaitTime s5.procs s5.readyQueue }
    { s6 with currentTime := s6.currentTime + 1 }

/-- The engine loop: run while some process is unfinished and the
iteration cap is not hit.  The fuel is exactly `maxIterations`. -/
def runLoop (alg : AlgSpec) (contextSwitchTime : Int) : Nat → SimState → SimState
  | 0, s => s
  | fuel + 1, s =>
    if s.completedCount < s.procs.length then
      runLoop alg contextSwitchTime fuel (simStep alg contextSwitchTime s)
    else s

/-- Comparator of the engine's initial `procs.sort((a, b) =>
a.arrivalTime - b.arrivalTime)` (arrival only, no tie-break). -/
def arrivalOnlyLe (a b : PCB) : Bool := a.arrivalTime ≤ b.arrivalTime

/-- Initial engine state: clones sorted (stably) by arrival time, all
counters zero.  `clone()` recomputes the constructor fields and copies
every dynamic field, so it is the identity on the modelled value. -/
def initState (processes : List PCB) : SimState :=
  { procs := jsSort arrivalOnlyLe processes
    readyQueue := []
    ioQueue := []
    ganttChart := []
    stateTransitions := []
    currentTime := 0
    runningProcess := none
    timeInCurrentBurst := 0
    completedCount := 0
    cpuBusyTime := 0
    contextSwitchRemaining := 0
    processArrivalIndex := 0 }

/-- Serialised PCB (`toJSON`), with the derived turnaround/waiting
fields. -/
structure PCBSnapshot where
  pid : Int
  arrivalTime : Int
  priority : Int
  originalPriority : Int
  burstSequence : List Burst
  state : ProcessState
  currentBurstIndex : Nat
  remainingBurstTime : Int
  totalCpuBurstTime : Int
  waitTime : Int
  responseTime : Int
  completionTime : Int
  turnaroundTime : Int
  calculatedWaitTime : Int
  currentQueueLevel : Nat
deriving DecidableEq, Repr

/-- Serialisation `PCB.toJSON`. -/
def PCB.toJSON (p : PCB) : PCBSnapshot :=
  ⟨p.pid, p.arrivalTime, p.priority, p.originalPriority, p.burstSequence,
    p.state, p.currentBurstIndex, p.remainingBurstTime, p.totalCpuBurstTime,
    p.waitTime, p.responseTime, p.completionTime, p.getTurnaroundTime,
    p.getWaitingTime, p.currentQueueLevel⟩

/-- The result object of a simulation run. -/
structure SimResult where
  ganttChart : List ConsolidatedEntry
  rawGanttChart : List GanttEntry
  stateTransitions : List Transition
  processes : List PCBSnapshot
  metrics : List (String × ℚ)
deriving DecidableEq, Repr

/-- `runSchedulerSimulation(processes, selectNext, options)`. -/
def runSchedulerSimulation (alg : AlgSpec) (contextSwitchTime : Int)
    (processes : List PCB) : SimResult :=
  let final := runLoop alg contextSwitchTime 10000 (initState processes)
  { ganttChart := consolidateGanttChart final.ganttChart
    rawGanttChart := final.ganttChart
    stateTransitions := final.stateTransitions
    processes := final.procs.map PCB.toJSON
    metrics := calculateMetrics final.procs final.ganttChart
      final.currentTime final.cpuBusyTime }

/-! ## The seven engine-based disciplines (src/algorithms/index.js) -/

/-- `runFCFS`: sort by arrival and dequeue the head; never preempt. -/
def fcfsSpec : AlgSpec :=
  { preemptive := false
    timeQuantum := none
    select := fun procs q _ => (procs, sortQueueBy arrivalLe procs q)
    checkPreempt := fun procs _ _ _ => (procs, false) }

/-- `runFCFS(processes, options)` with the given context-switch cost. -/
def runFCFS (processes : List PCB) (contextSwitchTime : Int) : SimResult :=
  runSchedulerSimulation fcfsSpec contextSwitchTime processes

/-- `runSJF`: sort by remaining burst time; never preempt. -/
def sjfSpec : AlgSpec :=
  { preemptive := false
    timeQuantum := none
    select := fun procs q _ => (procs, sortQueueBy burstTimeLe procs q)
    checkPreempt := fun procs _ _ _ => (procs, false) }

/-- `runSJF(processes, options)`. -/
def runSJF (processes : List PCB) (contextSwitchTime : Int) : SimResult :=
  runSchedulerSimulation sjfSpec contextSwitchTime processes

/-- The `reduce` of `runSRTF`'s preemption check: first element with the
strictly smallest remaining burst time. -/
def minByRemaining (p : PCB) (ps : List PCB) : PCB :=
  ps.foldl (fun m q => if q.remainingBurstTime < m.remainingBurstTime then q else m) p

/-- `runSRTF`: as SJF, preempting when some ready process has strictly
smaller remaining time than the running one. -/
def srtfSpec : AlgSpec :=
  { preemptive := true
    timeQuantum := none
    select := fun procs q _ => (procs, sortQueueBy burstTimeLe procs q)
    checkPreempt := fun procs rq r _ =>
      match rq.map (getP procs) with
      | [] => (procs, false)
      | p :: ps =>
        (procs, (minByRemaining p ps).remainingBurstTime <
          (getP procs r).remainingBurstTime) }

/-- `runSRTF(processes, options)`. -/
def runSRTF (processes : List PCB) (contextSwitchTime : Int) : SimResult :=
  runSchedulerSimulation srtfSpec contextSwitchTime processes

/-- The `reduce` of `runPriorityP`'s preemption check: first element with
the strictly smallest priority number. -/
def minByPriority (p : PCB) (ps : List PCB) : PCB :=
  ps.foldl (fun m q => if q.priority < m.priority then q else m) p

/-- `runPriorityNP`: apply aging (when enabled), sort by priority,
dequeue the head; never preempt. -/
def priorityNPSpec (agingInterval agingBoost : Int) : AlgSpec :=
  { preemptive := false
    timeQuantum := none
    select := fun procs q t =>
      let procs1 := if agingInterval > 0 then
        readyApplyAging procs q t agingInterval agingBoost else procs
      (procs1, sortQueueBy priorityLe procs1 q)
    checkPreempt := fun procs _ _ _ => (procs, false) }

/-- `runPriorityNP(processes, options)`. -/
def runPriorityNP (processes : List PCB)
    (contextSwitchTime agingInterval agingBoost : Int) : SimResult :=
  runSchedulerSimulation (priorityNPSpec agingInterval agingBoost)
    contextSwitchTime processes

/-- `runPriorityP`: as `runPriorityNP`, preempting when some ready
process has a strictly higher priority (lower number), after aging. -/
def priorityPSpec (agingInterval agingBoost : Int) : AlgSpec :=
  { preemptive := true
    timeQuantum := none
    select := fun procs q t =>
      let procs1 := if agingInterval > 0 then
        readyApplyAging procs q t agingInterval agingBoost else procs
      (procs1, sortQueueBy priorityLe procs1 q)
    checkPreempt := fun procs rq r t =>
      match rq with
      | [] => (procs, false)
      | _ =>
        let procs1 := if agingInterval > 0 then
          readyApplyAging procs rq t agingInterval agingBoost else procs
        match rq.map (getP procs1) with
        | [] => (procs1, false)
        | p :: ps =>
          (procs1, (minByPriority p ps).priority < (getP procs1 r).priority) }

/-- `runPriorityP(processes, options)`. -/
def runPriorityP (processes : List PCB)
    (contextSwitchTime agingInterval agingBoost : Int) : SimResult :=
  runSchedulerSimulation (priorityPSpec agingInterval agingBoost)
    contextSwitchTime processes

/-- `runRoundRobin`: FIFO dequeue, preempt only on quantum expiry. -/
def rrSpec (timeQuantum : Int) : AlgSpec :=
  { preemptive := true
    timeQuantum := some timeQuantum
    select := fun procs q _ => (procs, q)
    checkPreempt := fun procs _ _ _ => (procs, false) }

/-- `runRoundRobin(processes, options)` (default quantum 4 at the call
site). -/
def runRoundRobin (processes : List PCB)
    (contextSwitchTime timeQuantum : Int) : SimResult :=
  runSchedulerSimulation (rrSpec timeQuantum) contextSwitchTime processes

/-- `runHRRN`: sort by response ratio at the current tick; never
preempt. -/
def hrrnSpec : AlgSpec :=
  { preemptive := false
    timeQuantum := none
    select := fun procs q t => (procs, sortQueueBy (responseRatioLe t) procs q)
    checkPreempt := fun procs _ _ _ => (procs, false) }

/-- `runHRRN(processes, options)`. -/
def runHRRN (processes : List PCB) (contextSwitchTime : Int) : SimResult :=
  runSchedulerSimulation hrrnSpec contextSwitchTime processes

/-! ## Claim theorems -/

/-- Scenario S1 workload: P1{arr=0, cpu=5}, P2{arr=1, cpu=3},
P3{arr=2, cpu=1}, no I/O, default priority. -/
def s1Workload : List PCB :=
  [createSimplePCB 1 0 5 0 [], createSimplePCB 2 1 3 0 [], createSimplePCB 3 2 1 0 []]

/-- C1: running FCFS on P1{arr=0,cpu=5}, P2{arr=1,cpu=3}, P3{arr=2,cpu=1}
with contextSwitchTime 0 yields the consolidated timeline P1 over [0,5),
P2 over [5,8), P3 over [8,9), average turnaround 19/3 and average
waiting 10/3. -/
theorem fcfs_s1_timeline_and_averages :
    (runFCFS s1Workload 0).ganttChart =
      [⟨0, GanttType.PROCESS, some 1, none, 0, 5, 5⟩,
       ⟨5, GanttType.PROCESS, some 2, none, 5, 8, 3⟩,
       ⟨8, GanttType.PROCESS, some 3, none, 8, 9, 1⟩] ∧
    (runFCFS s1Workload 0).metrics.lookup "avgTurnaroundTime" = some (19 / 3 : ℚ) ∧
    (runFCFS s1Workload 0).metrics.lookup "avgWaitingTime" = some (10 / 3 : ℚ) :=
  ⟨by decide, rfl, rfl⟩

/-! ## Engine-level lemmas: per-phase footprints -/

theorem admitArrivals_preserves (fuel : Nat) :
    ∀ s : SimState, (admitArrivals fuel s).ganttChart = s.ganttChart ∧
      (admitArrivals fuel s).runningProcess = s.runningProcess ∧
      (admitArrivals fuel s).timeInCurrentBurst = s.timeInCurrentBurst ∧
      (admitArrivals fuel s).contextSwitchRemaining = s.contextSwitchRemaining ∧
      (admitArrivals fuel s).currentTime = s.currentTime ∧
      (admitArrivals fuel s).completedCount = s.completedCount ∧
      (admitArrivals fuel s).ioQueue = s.ioQueue := by
  induction fuel with
  | zero => intro s; exact ⟨rfl, rfl, rfl, rfl, rfl, rfl, rfl⟩
  | succ n ih =>
    intro s
    by_cases h : s.processArrivalIndex < s.procs.length ∧
        (getP s.procs s.processArrivalIndex).arrivalTime ≤ s.currentTime
    · simp only [admitArrivals, if_pos h]
      exact ih _
    · simp [admitArrivals, if_neg h]

theorem admitArrivals_of_done (fuel : Nat) (s : SimState)
    (h : s.procs.length ≤ s.processArrivalIndex) :
    admitArrivals fuel s = s := by
  cases fuel with
  | zero => rfl
  | succ n =>
    simp only [admitArrivals]
    rw [if_neg]
    intro hc
    exact absurd hc.1 (Nat.not_lt.mpr h)

theorem ioCompletionPhase_of_empty (s : SimState) (h : s.ioQueue = []) :
    ioCompletionPhase s = s := by
  obtain ⟨procs, rq, ioq, g, tr, t, run, tib, cc, busy, cs, idx⟩ := s
  simp only at h
  subst h
  rfl

theorem preemptionPhase_of_none (alg : AlgSpec) (cst : Int) (s : SimState)
    (h : s.runningProcess = none) :
    preemptionPhase alg cst s = s := by
  obtain ⟨procs, rq, ioq, g, tr, t, run, tib, cc, busy, cs, idx⟩ := s
  simp only at h
  subst h
  rfl

theorem selectionPhase_of_idle (alg : AlgSpec) (s : SimState)
    (hrun : s.runningProcess = none) (hq : s.readyQueue = []) :
    selectionPhase alg s = s := by
  obtain ⟨procs, rq, ioq, g, tr, t, run, tib, cc, busy, cs, idx⟩ := s
  simp only at hrun hq
  subst hrun; subst hq
  rfl

/-- A state of the engine from which nothing can ever happen again: all
arrivals admitted, no queued or running work, no pending context
switch.  The engine then idles forever. -/
def DeadState (s : SimState) : Prop :=
  s.procs.length ≤ s.processArrivalIndex ∧ s.ioQueue = [] ∧ s.readyQueue = [] ∧
    s.runningProcess = none ∧ s.contextSwitchRemaining ≤ 0

instance (s : SimState) : Decidable (DeadState s) := by
  unfold DeadState; infer_instance

theorem simStep_dead (alg : AlgSpec) (cst : Int) (s : SimState) (h : DeadState s) :
    simStep alg cst s =
      { s with
        ganttChart := s.ganttChart ++ [⟨s.currentTime, GanttType.IDLE, none, none⟩]
        currentTime := s.currentTime + 1 } := by
  obtain ⟨h1, h2, h3, h4, h5⟩ := h
  simp only [simStep, admitArrivals_of_done _ _ h1, ioCompletionPhase_of_empty _ h2]
  rw [if_neg (by omega : ¬ s.contextSwitchRemaining > 0)]
  simp only [preemptionPhase_of_none alg cst s h4, selectionPhase_of_idle alg s h4 h3,
    executePhase, h4, readyIncrementWaitTime, h3, List.foldl_nil]

theorem runLoop_dead (alg : AlgSpec) (cst : Int) :
    ∀ (fuel : Nat) (s : SimState), DeadState s →
      s.completedCount < s.procs.length →
      (runLoop alg cst fuel s).procs = s.procs ∧
      (runLoop alg cst fuel s).stateTransitions = s.stateTransitions ∧
      (runLoop alg cst fuel s).completedCount = s.completedCount ∧
      (runLoop alg cst fuel s).ganttChart.length = s.ganttChart.length + fuel ∧
      (runLoop alg cst fuel s).currentTime = s.currentTime + fuel := by
  intro fuel
  induction fuel with
  | zero => intro s _ _; exact ⟨rfl, rfl, rfl, rfl, by simp [runLoop]⟩
  | succ n ih =>
    intro s hd hlt
    have hstep := simStep_dead alg cst s hd
    have hd2 : DeadState (simStep alg cst s) := by
      rw [hstep]; exact hd
    have hlt2 : (simStep alg cst s).completedCount <
        (simStep alg cst s).procs.length := by
      rw [hstep]; exact hlt
    have := ih (simStep alg cst s) hd2 hlt2
    rw [runLoop, if_pos hlt]
    refine ⟨?_, ?_, ?_, ?_, ?_⟩
    · rw [this.1, hstep]
    · rw [this.2.1, hstep]
    · rw [this.2.2.1, hstep]
    · rw [this.2.2.2.1, hstep]
      simp only [List.length_append, List.length_singleton]
      omega
    · rw [this.2.2.2.2, hstep]
      simp only
      omega

theorem runLoop_step_of_lt (alg : AlgSpec) (cst : Int) (fuel : Nat) (s : SimState)
    (h : s.completedCount < s.procs.length) :
    runLoop alg cst (fuel + 1) s = runLoop alg cst fuel (simStep alg cst s) := by
  rw [runLoop, if_pos h]

theorem ioReadmission_preserves (st : SimState) (i : Nat) :
    (ioReadmission st i).ganttChart = st.ganttChart ∧
    (ioReadmission st i).runningProcess = st.runningProcess ∧
    (ioReadmission st i).timeInCurrentBurst = st.timeInCurrentBurst ∧
    (ioReadmission st i).contextSwitchRemaining = st.contextSwitchRemaining ∧
    (ioReadmission st i).currentTime = st.currentTime ∧
    (ioReadmission st i).completedCount = st.completedCount ∧
    (ioReadmission st i).cpuBusyTime = st.cpuBusyTime ∧
    (ioReadmission st i).ioQueue = st.ioQueue := by
  unfold ioReadmission
  split
  · exact ⟨rfl, rfl, rfl, rfl, rfl, rfl, rfl, rfl⟩
  · exact ⟨rfl, rfl, rfl, rfl, rfl, rfl, rfl, rfl⟩

theorem foldl_ioReadmission_preserves (l : List Nat) :
    ∀ st : SimState, ((l.foldl ioReadmission st).ganttChart = st.ganttChart ∧
      (l.foldl ioReadmission st).runningProcess = st.runningProcess ∧
      (l.foldl ioReadmission st).timeInCurrentBurst = st.timeInCurrentBurst ∧
      (l.foldl ioReadmission st).contextSwitchRemaining = st.contextSwitchRemaining ∧
      (l.foldl ioReadmission st).currentTime = st.currentTime ∧
      (l.foldl ioReadmission st).completedCount = st.completedCount ∧
      (l.foldl ioReadmission st).cpuBusyTime = st.cpuBusyTime) := by
  induction l with
  | nil => intro st; exact ⟨rfl, rfl, rfl, rfl, rfl, rfl, rfl⟩
  | cons a t ih =>
    intro st
    simp only [List.foldl_cons]
    have h1 := ioReadmission_preserves st a
    have h2 := ih (ioReadmission st a)
    exact ⟨h2.1.trans h1.1, h2.2.1.trans h1.2.1, h2.2.2.1.trans h1.2.2.1,
      h2.2.2.2.1.trans h1.2.2.2.1, h2.2.2.2.2.1.trans h1.2.2.2.2.1,
      h2.2.2.2.2.2.1.trans h1.2.2.2.2.2.1, h2.2.2.2.2.2.2.trans h1.2.2.2.2.2.2.1⟩

theorem ioCompletionPhase_preserves (s : SimState) :
    (ioCompletionPhase s).ganttChart = s.ganttChart ∧
    (ioCompletionPhase s).runningProcess = s.runningProcess ∧
    (ioCompletionPhase s).timeInCurrentBurst = s.timeInCurrentBurst ∧
    (ioCompletionPhase s).contextSwitchRemaining = s.contextSwitchRemaining ∧
    (ioCompletionPhase s).currentTime = s.currentTime ∧
    (ioCompletionPhase s).completedCount = s.completedCount ∧
    (ioCompletionPhase s).cpuBusyTime = s.cpuBusyTime := by
  unfold ioCompletionPhase
  exact foldl_ioReadmission_preserves _ _

theorem preemptionPhase_preserves (alg : AlgSpec) (cst : Int) (s : SimState) :
    (preemptionPhase alg cst s).ganttChart = s.ganttChart ∧
    (preemptionPhase alg cst s).currentTime = s.currentTime ∧
    (preemptionPhase alg cst s).completedCount = s.completedCount ∧
    (preemptionPhase alg cst s).cpuBusyTime = s.cpuBusyTime ∧
    (preemptionPhase alg cst s).ioQueue = s.ioQueue ∧
    (preemptionPhase alg cst s).processArrivalIndex = s.processArrivalIndex := by
  unfold preemptionPhase
  cases h : s.runningProcess with
  | none => simp [h]
  | some r =>
    simp only [h]
    split <;> simp [apply_ite SimState.ganttChart, apply_ite SimState.currentTime,
      apply_ite SimState.completedCount, apply_ite SimState.cpuBusyTime,
      apply_ite SimState.ioQueue, apply_ite SimState.processArrivalIndex]

theorem selectionPhase_preserves (alg : AlgSpec) (s : SimState) :
    (selectionPhase alg s).ganttChart = s.ganttChart ∧
    (selectionPhase alg s).currentTime = s.currentTime ∧
    (selectionPhase alg s).completedCount = s.completedCount ∧
    (selectionPhase alg s).cpuBusyTime = s.cpuBusyTime ∧
    (selectionPhase alg s).ioQueue = s.ioQueue ∧
    (selectionPhase alg s).contextSwitchRemaining = s.contextSwitchRemaining ∧
    (selectionPhase alg s).processArrivalIndex = s.processArrivalIndex := by
  unfold selectionPhase
  cases h : s.runningProcess with
  | some r => simp [h]
  | none =>
    simp only [h]
    split
    · simp
    · split <;> simp

theorem executePhase_gantt_len (cst : Int) (s : SimState) :
    (executePhase cst s).ganttChart.length = s.ganttChart.length + 1 ∧
    (executePhase cst s).currentTime = s.currentTime := by
  unfold executePhase
  cases h : s.runningProcess with
  | none => simp [h]
  | some r =>
    simp only [h]
    split <;>
      simp [apply_ite SimState.ganttChart, apply_ite SimState.currentTime]

theorem simStep_len_time (alg : AlgSpec) (cst : Int) (s : SimState) :
    (simStep alg cst s).ganttChart.length = s.ganttChart.length + 1 ∧
    (simStep alg cst s).currentTime = s.currentTime + 1 := by
  simp only [simStep]
  have ha := admitArrivals_preserves s.procs.length s
  have hb := ioCompletionPhase_preserves (admitArrivals s.procs.length s)
  split
  · constructor
    · simp only [List.length_append, List.length_singleton]
      rw [hb.1, ha.1]
    · simp only []
      rw [hb.2.2.2.2.1, ha.2.2.2.2.1]
  · have hc := preemptionPhase_preserves alg cst
      (ioCompletionPhase (admitArrivals s.procs.length s))
    have hd := selectionPhase_preserves alg
      (preemptionPhase alg cst (ioCompletionPhase (admitArrivals s.procs.length s)))
    have he := executePhase_gantt_len cst
      (selectionPhase alg (preemptionPhase alg cst
        (ioCompletionPhase (admitArrivals s.procs.length s))))
    constructor
    · simp only []
      rw [he.1, hd.1, hc.1, hb.1, ha.1]
    · simp only []
      rw [he.2, hd.2.1, hc.2.1, hb.2.2.2.2.1, ha.2.2.2.2.1]

theorem runLoop_gantt_le (alg : AlgSpec) (cst : Int) :
    ∀ (fuel : Nat) (s : SimState),
      (runLoop alg cst fuel s).ganttChart.length ≤ s.ganttChart.length + fuel := by
  intro fuel
  induction fuel with
  | zero => intro s; simp [runLoop]
  | succ n ih =>
    intro s
    rw [runLoop]
    split
    · have := ih (simStep alg cst s)
      have h2 := (simStep_len_time alg cst s).1
      omega
    · omega

/-! ## The stuck run: a burst sequence ending in I/O (claims C2, C3) -/

/-- Workload whose single process's burst sequence ends with an I/O burst
(`afterCpu = cpuBurst`): P1{arr=0, cpu=2, ioBursts=[{afterCpu:2,
duration:1}]}, giving the sequence [CPU 2, IO 1]. -/
def stuckWorkload : List PCB := [createSimplePCB 1 0 2 0 [⟨2, 1⟩]]

/-- Engine state after the first three iterations on `stuckWorkload`:
P1 has run its CPU burst (t=0,1), its I/O burst has completed at t=2 and
it was dropped from every queue without being terminated. -/
def stuckS3 : SimState :=
  simStep fcfsSpec 0 (simStep fcfsSpec 0 (simStep fcfsSpec 0 (initState stuckWorkload)))

theorem stuck_runLoop_eq :
    runLoop fcfsSpec 0 10000 (initState stuckWorkload) =
      runLoop fcfsSpec 0 9997 stuckS3 := by
  have e1 := runLoop_step_of_lt fcfsSpec 0 9999 (initState stuckWorkload) (by decide)
  have e2 := runLoop_step_of_lt fcfsSpec 0 9998
    (simStep fcfsSpec 0 (initState stuckWorkload)) (by decide)
  have e3 := runLoop_step_of_lt fcfsSpec 0 9997
    (simStep fcfsSpec 0 (simStep fcfsSpec 0 (initState stuckWorkload))) (by decide)
  exact e1.trans (e2.trans e3)

theorem stuck_final_facts :
    (runLoop fcfsSpec 0 10000 (initState stuckWorkload)).procs = stuckS3.procs ∧
    (runLoop fcfsSpec 0 10000 (initState stuckWorkload)).stateTransitions =
      stuckS3.stateTransitions ∧
    (runLoop fcfsSpec 0 10000 (initState stuckWorkload)).ganttChart.length = 10000 ∧
    (runLoop fcfsSpec 0 10000 (initState stuckWorkload)).currentTime = 10000 := by
  have hd : DeadState stuckS3 := by decide
  have hlt : stuckS3.completedCount < stuckS3.procs.length := by decide
  have h := runLoop_dead fcfsSpec 0 9997 stuckS3 hd hlt
  rw [stuck_runLoop_eq]
  refine ⟨h.1, h.2.1, ?_, ?_⟩
  · rw [h.2.2.2.1]
    have hg : stuckS3.ganttChart.length = 3 := by decide
    omega
  · rw [h.2.2.2.2]
    have ht : stuckS3.currentTime = 3 := by decide
    rw [ht]
    decide

theorem runSim_processes (alg : AlgSpec) (cst : Int) (ps : List PCB) :
    (runSchedulerSimulation alg cst ps).processes =
      (runLoop alg cst 10000 (initState ps)).procs.map PCB.toJSON := rfl

theorem runSim_transitions (alg : AlgSpec) (cst : Int) (ps : List PCB) :
    (runSchedulerSimulation alg cst ps).stateTransitions =
      (runLoop alg cst 10000 (initState ps)).stateTransitions := rfl

theorem runSim_rawGantt (alg : AlgSpec) (cst : Int) (ps : List PCB) :
    (runSchedulerSimulation alg cst ps).rawGanttChart =
      (runLoop alg cst 10000 (initState ps)).ganttChart := rfl

theorem runSim_metrics (alg : AlgSpec) (cst : Int) (ps : List PCB) :
    (runSchedulerSimulation alg cst ps).metrics =
      calculateMetrics (runLoop alg cst 10000 (initState ps)).procs
        (runLoop alg cst 10000 (initState ps)).ganttChart
        (runLoop alg cst 10000 (initState ps)).currentTime
        (runLoop alg cst 10000 (initState ps)).cpuBusyTime := rfl

/-- C2 (code bug): when a process's I/O burst completes and the process
has no more bursts, the engine does NOT handle termination: on the
workload P1{arr=0, cpu=2, ioBursts=[{afterCpu:2, duration:1}]} the
process is silently dropped while still WAITING, `completionTime` stays
−1, no transition to TERMINATED is ever emitted, and the run spins to
the 10000-tick iteration cap instead of terminating. -/
theorem fcfs_trailing_io_never_terminates :
    ((runFCFS stuckWorkload 0).processes.map fun p =>
      (p.pid, p.state, p.completionTime)) =
        [(1, ProcessState.WAITING, -1)] ∧
    ((runFCFS stuckWorkload 0).stateTransitions.filter
      (fun tr => tr.toState == ProcessState.TERMINATED)) = [] ∧
    (runFCFS stuckWorkload 0).rawGanttChart.length = 10000 := by
  have h := stuck_final_facts
  refine ⟨?_, ?_, ?_⟩
  · rw [runFCFS, runSim_processes, h.1]
    decide
  · rw [runFCFS, runSim_transitions, h.2.1]
    decide
  · rw [runFCFS, runSim_rawGantt]
    exact h.2.2.1

/-- C3 (counterexample): on the workload P1{arr=0, cpu=2,
ioBursts=[{afterCpu:2, duration:1}]} the engine reaches the 10000-tick
iteration cap without all processes terminating, yet it returns a normal
Result — a 10000-entry raw timeline, a metrics record with totalTime
10000, and a non-terminated process — rather than aborting with an
error; no `IterationCapExceeded` error exists in the code. -/
theorem iteration_cap_silently_truncates :
    (runFCFS stuckWorkload 0).rawGanttChart.length = 10000 ∧
    ¬ (∀ p ∈ (runFCFS stuckWorkload 0).processes,
        p.state = ProcessState.TERMINATED) ∧
    (runFCFS stuckWorkload 0).metrics.lookup "totalTime" = some (10000 : ℚ) := by
  have h := stuck_final_facts
  refine ⟨?_, ?_, ?_⟩
  · rw [runFCFS, runSim_rawGantt]
    exact h.2.2.1
  · rw [runFCFS, runSim_processes, h.1]
    decide
  · rw [runFCFS, runSim_metrics, h.1, h.2.2.2]
    rfl

/-- C3 (amended): reaching the iteration cap does not abort the run or
surface an error; the engine always returns a normal Result whose raw
timeline is truncated at the 10000-tick cap. -/
theorem runSchedulerSimulation_truncates_at_cap (alg : AlgSpec) (cst : Int)
    (ps : List PCB) :
    (runSchedulerSimulation alg cst ps).rawGanttChart.length ≤ 10000 := by
  show (runLoop alg cst 10000 (initState ps)).ganttChart.length ≤ 10000
  have h := runLoop_gantt_le alg cst 10000 (initState ps)
  simpa [initState] using h

/-! ## Shape of the constructed burst sequence (claim C6) -/

/-- The opposite burst type. -/
def BurstType.other : BurstType → BurstType
  | .CPU => .IOB
  | .IOB => .CPU

/-- `Alternating t l` holds when the burst types of `l` strictly
alternate starting with `t`. -/
inductive Alternating : BurstType → List Burst → Prop
  | nil (t : BurstType) : Alternating t []
  | cons {t : BurstType} {b : Burst} {l : List Burst} :
      b.type = t → Alternating t.other l → Alternating t (b :: l)

theorem alternating_append_cpu {t : BurstType} {l : List Burst} (d : Int)
    (h : Alternating t l)
    (hlast : l.getLast?.map Burst.type = some BurstType.IOB) :
    Alternating t (l ++ [cpuBurstOf d]) := by
  induction h with
  | nil t => simp at hlast
  | @cons t b l hb hl ih =>
    cases l with
    | nil =>
      simp only [List.getLast?_singleton, Option.map_some] at hlast
      have hbt : b.type = BurstType.IOB := by injection hlast
      have ht : t = BurstType.IOB := hb.symm.trans hbt
      subst ht
      exact Alternating.cons hbt (Alternating.cons rfl (Alternating.nil _))
    | cons b2 l2 =>
      have hlast2 : (b2 :: l2).getLast?.map Burst.type = some BurstType.IOB := by
        rwa [List.getLast?_cons_cons] at hlast
      exact Alternating.cons hb (ih hlast2)

theorem buildBursts_shape :
    ∀ (l : List IOBurstSpec) (consumed : Int),
      (∀ iob ∈ l, 1 ≤ iob.duration) →
      (l.Pairwise fun a b => a.afterCpu < b.afterCpu) →
      (∀ iob ∈ l, consumed < iob.afterCpu) →
      Alternating BurstType.CPU (buildBursts consumed l).1 ∧
      (∀ b ∈ (buildBursts consumed l).1, 1 ≤ b.duration) ∧
      (buildBursts consumed l).2 =
        (l.map IOBurstSpec.afterCpu).getLastD consumed ∧
      (l ≠ [] →
        (buildBursts consumed l).1.head?.map Burst.type = some BurstType.CPU ∧
        (buildBursts consumed l).1.getLast?.map Burst.type = some BurstType.IOB) := by
  intro l
  induction l with
  | nil =>
    intro consumed _ _ _
    refine ⟨Alternating.nil _, by simp [buildBursts], by simp [buildBursts], ?_⟩
    intro h
    exact absurd rfl h
  | cons iob rest ih =>
    intro consumed hdur hpw hgt
    have hbefore : iob.afterCpu - consumed > 0 := by
      have := hgt iob (List.mem_cons_self _ _); omega
    have hpwc := List.pairwise_cons.mp hpw
    have ihr := ih iob.afterCpu
      (fun x hx => hdur x (List.mem_cons_of_mem _ hx)) hpwc.2 hpwc.1
    simp only [buildBursts, if_pos hbefore]
    refine ⟨?_, ?_, ?_, ?_⟩
    · exact Alternating.cons rfl (Alternating.cons rfl ihr.1)
    · intro b hb
      rcases List.mem_cons.mp hb with rfl | hb2
      · simp only [cpuBurstOf]
        omega
      · rcases List.mem_cons.mp hb2 with rfl | hb3
        · simpa [ioBurstOf] using hdur iob (List.mem_cons_self _ _)
        · exact ihr.2.1 b hb3
    · rw [ihr.2.2.1, List.map_cons, List.getLastD_cons]
    · intro _
      refine ⟨rfl, ?_⟩
      cases hres : (buildBursts iob.afterCpu rest).1 with
      | nil =>
        simp [ioBurstOf]
      | cons x xs =>
        have hrne : rest ≠ [] := by
          intro hnil
          rw [hnil] at hres
          simp [buildBursts] at hres
        have htail := (ihr.2.2.2 hrne).2
        rw [hres] at htail
        rw [List.getLast?_cons_cons, List.getLast?_cons_cons]
        exact htail

theorem getLastD_map_of_ne_nil (f : α → β) :
    ∀ (l : List α) (h : l ≠ []) (d : β), (l.map f).getLastD d = f (l.getLast h) := by
  intro l
  induction l with
  | nil => intro h; exact absurd rfl h
  | cons a t ih =>
    intro h d
    cases t with
    | nil => simp
    | cons b t2 =>
      rw [List.map_cons, List.getLastD_cons, List.getLast_cons (by simp)]
      exact ih (by simp) (f a)

theorem afterCpuLe_total (a b : IOBurstSpec) :
    afterCpuLe a b = true ∨ afterCpuLe b a = true := by
  simp only [afterCpuLe, decide_eq_true_eq]
  omega

theorem afterCpuLe_trans (a b c : IOBurstSpec) :
    afterCpuLe a b = true → afterCpuLe b c = true → afterCpuLe a c = true := by
  simp only [afterCpuLe, decide_eq_true_eq]
  omega

/-- C6 (counterexample): with `afterCpu = cpuBurst` the constructed
burst sequence ends with an I/O burst, and with `afterCpu = 0` it begins
with one, although both inputs satisfy the claim's constraints
`0 ≤ afterCpu ≤ cpuBurst`, distinct `afterCpu`, `duration ≥ 1`. -/
theorem createSimplePCB_io_endpoint_counterexample :
    (createSimplePCB 1 0 2 0 [⟨2, 1⟩]).burstSequence.getLast?.map Burst.type =
      some BurstType.IOB ∧
    (createSimplePCB 4 0 3 0 [⟨0, 2⟩]).burstSequence.head?.map Burst.type =
      some BurstType.IOB := by
  decide

theorem pairwise_afterCpu_le_getLast :
    ∀ (l : List IOBurstSpec) (h : l ≠ []),
      l.Pairwise (fun a b => a.afterCpu < b.afterCpu) →
      ∀ x ∈ l, x.afterCpu ≤ (l.getLast h).afterCpu := by
  intro l
  induction l with
  | nil => intro h; exact absurd rfl h
  | cons a t ih =>
    intro h hpw x hx
    cases t with
    | nil =>
      have hxa := List.mem_singleton.mp hx
      subst hxa
      exact le_refl _
    | cons b t2 =>
      rw [List.getLast_cons (List.cons_ne_nil b t2)]
      have hpwc := List.pairwise_cons.mp hpw
      rcases List.mem_cons.mp hx with rfl | hx2
      · have hlt := hpwc.1 _ (List.getLast_mem (List.cons_ne_nil b t2))
        omega
      · exact ih (List.cons_ne_nil b t2) hpwc.2 x hx2

/-- C6 (amended): for cpuBurst ≥ 1 and I/O bursts satisfying the
claim's stated constraints (0 ≤ afterCpu ≤ cpuBurst, pairwise-distinct
afterCpu values, duration ≥ 1), the burst sequence built by
`createSimplePCB` strictly alternates between CPU and I/O bursts and
every duration is at least 1; it begins with a CPU burst exactly when
every afterCpu is positive and ends with one exactly when every
afterCpu is below cpuBurst — for an endpoint split point (afterCpu = 0
resp. afterCpu = cpuBurst) no leading resp. trailing CPU segment is
emitted and the sequence begins resp. ends with an I/O burst
instead. -/
theorem createSimplePCB_alternating_cpu_bounded
    (pid arrivalTime cpuBurst priority : Int) (ioBursts : List IOBurstSpec)
    (hcpu : 1 ≤ cpuBurst)
    (hioc : ∀ iob ∈ ioBursts,
      0 ≤ iob.afterCpu ∧ iob.afterCpu ≤ cpuBurst ∧ 1 ≤ iob.duration)
    (hdist : ioBursts.Pairwise fun a b => a.afterCpu ≠ b.afterCpu) :
    Alternating
      (if ∀ iob ∈ ioBursts, 0 < iob.afterCpu then BurstType.CPU else BurstType.IOB)
      (createSimplePCB pid arrivalTime cpuBurst priority ioBursts).burstSequence ∧
    (∀ b ∈ (createSimplePCB pid arrivalTime cpuBurst priority ioBursts).burstSequence,
      1 ≤ b.duration) ∧
    (createSimplePCB pid arrivalTime cpuBurst priority
        ioBursts).burstSequence.head?.map Burst.type =
      some (if ∀ iob ∈ ioBursts, 0 < iob.afterCpu then BurstType.CPU
        else BurstType.IOB) ∧
    (createSimplePCB pid arrivalTime cpuBurst priority
        ioBursts).burstSequence.getLast?.map Burst.type =
      some (if ∀ iob ∈ ioBursts, iob.afterCpu < cpuBurst then BurstType.CPU
        else BurstType.IOB) := by
  have hbs : (createSimplePCB pid arrivalTime cpuBurst priority ioBursts).burstSequence =
      simpleBurstSequence cpuBurst ioBursts := rfl
  rw [hbs]
  cases hioB : ioBursts with
  | nil =>
    subst hioB
    rw [if_pos (show ∀ iob ∈ ([] : List IOBurstSpec), 0 < iob.afterCpu by simp),
      if_pos (show ∀ iob ∈ ([] : List IOBurstSpec), iob.afterCpu < cpuBurst by simp)]
    refine ⟨Alternating.cons rfl (Alternating.nil _), ?_, rfl, ?_⟩
    · intro b hb
      simp only [simpleBurstSequence, List.mem_singleton] at hb
      subst hb
      exact hcpu
    · simp [simpleBurstSequence, cpuBurstOf]
  | cons i0 irest =>
    subst hioB
    have hne : jsSort afterCpuLe (i0 :: irest) ≠ [] := by
      intro h
      have := length_jsSort afterCpuLe (i0 :: irest)
      rw [h] at this
      simp at this
    have hmem : ∀ iob ∈ jsSort afterCpuLe (i0 :: irest),
        0 ≤ iob.afterCpu ∧ iob.afterCpu ≤ cpuBurst ∧ 1 ≤ iob.duration :=
      fun iob hi => hioc iob ((mem_jsSort _ _ _).mp hi)
    have hpwle := pairwise_jsSort afterCpuLe afterCpuLe_total afterCpuLe_trans
      (i0 :: irest)
    have hpwne : (jsSort afterCpuLe (i0 :: irest)).Pairwise
        (fun a b => a.afterCpu ≠ b.afterCpu) :=
      ((jsSort_perm afterCpuLe (i0 :: irest)).pairwise_iff
        (fun hxy => hxy.symm)).mpr hdist
    have hstrict : (jsSort afterCpuLe (i0 :: irest)).Pairwise
        (fun a b => a.afterCpu < b.afterCpu) := by
      refine (hpwle.and hpwne).imp ?_
      intro a b hab
      have h1 : a.afterCpu ≤ b.afterCpu := by
        have := hab.1
        simpa [afterCpuLe, decide_eq_true_eq] using this
      exact lt_of_le_of_ne h1 hab.2
    have hmembr := fun x : IOBurstSpec => mem_jsSort afterCpuLe (i0 :: irest) x
    cases hsorted : jsSort afterCpuLe (i0 :: irest) with
    | nil => exact absurd hsorted hne
    | cons s0 srest =>
    rw [hsorted] at hmem hstrict hmembr
    have hseq0 : simpleBurstSequence cpuBurst (i0 :: irest) =
        (if cpuBurst - (buildBursts 0 (s0 :: srest)).2 > 0 then
          (buildBursts 0 (s0 :: srest)).1 ++
            [cpuBurstOf (cpuBurst - (buildBursts 0 (s0 :: srest)).2)]
        else (buildBursts 0 (s0 :: srest)).1) := by
      simp only [simpleBurstSequence]
      rw [hsorted]
    have hpwc := List.pairwise_cons.mp hstrict
    by_cases h0 : 0 < s0.afterCpu
    · have hallpos0 : ∀ x ∈ s0 :: srest, 0 < x.afterCpu := by
        intro x hx
        rcases List.mem_cons.mp hx with rfl | hx2
        · exact h0
        · have := hpwc.1 x hx2
          omega
      have hallpos : ∀ iob ∈ i0 :: irest, 0 < iob.afterCpu :=
        fun x hx => hallpos0 x ((hmembr x).mpr hx)
      have shape := buildBursts_shape (s0 :: srest) 0
        (fun x hx => (hmem x hx).2.2) hstrict (fun x hx => hallpos0 x hx)
      have hne2 : s0 :: srest ≠ [] := List.cons_ne_nil s0 srest
      have headlast := shape.2.2.2 hne2
      have hfin : (buildBursts 0 (s0 :: srest)).2 =
          ((s0 :: srest).getLast hne2).afterCpu := by
        rw [shape.2.2.1]
        exact getLastD_map_of_ne_nil _ _ hne2 0
      rw [if_pos hallpos]
      by_cases hl : ((s0 :: srest).getLast hne2).afterCpu < cpuBurst
      · have hrem : cpuBurst - (buildBursts 0 (s0 :: srest)).2 > 0 := by
          rw [hfin]
          omega
        have hltall : ∀ iob ∈ i0 :: irest, iob.afterCpu < cpuBurst := by
          intro x hx
          have hx2 := (hmembr x).mpr hx
          have := pairwise_afterCpu_le_getLast (s0 :: srest) hne2 hstrict x hx2
          omega
        rw [if_pos hltall, hseq0, if_pos hrem]
        refine ⟨alternating_append_cpu _ shape.1 headlast.2, ?_, ?_, ?_⟩
        · intro b hb
          rcases List.mem_append.mp hb with hb1 | hb2
          · exact shape.2.1 b hb1
          · simp only [List.mem_singleton] at hb2
            subst hb2
            simp only [cpuBurstOf]
            omega
        · rw [List.head?_append]
          cases hh : (buildBursts 0 (s0 :: srest)).1.head? with
          | none => rw [hh] at headlast; simp at headlast
          | some b =>
            rw [hh] at headlast
            simpa using headlast.1
        · rw [List.getLast?_concat]
          rfl
      · have hle := (hmem _ (List.getLast_mem hne2)).2.1
        have hnrem : ¬ cpuBurst - (buildBursts 0 (s0 :: srest)).2 > 0 := by
          rw [hfin]
          omega
        have hnall : ¬ ∀ iob ∈ i0 :: irest, iob.afterCpu < cpuBurst := by
          intro hall
          exact hl (hall _ ((hmembr _).mp (List.getLast_mem hne2)))
        rw [if_neg hnall, hseq0, if_neg hnrem]
        exact ⟨shape.1, shape.2.1, headlast.1, headlast.2⟩
    · have h00 : s0.afterCpu = 0 := by
        have := (hmem s0 (List.mem_cons_self s0 srest)).1
        omega
      have hnallpos : ¬ ∀ iob ∈ i0 :: irest, 0 < iob.afterCpu := by
        intro hall
        have := hall s0 ((hmembr s0).mp (List.mem_cons_self s0 srest))
        omega
      have hrestpos : ∀ x ∈ srest, 0 < x.afterCpu := by
        intro x hx
        have := hpwc.1 x hx
        omega
      have shape2 := buildBursts_shape srest 0
        (fun x hx => (hmem x (List.mem_cons_of_mem s0 hx)).2.2) hpwc.2
        (fun x hx => hrestpos x hx)
      have hstep : buildBursts 0 (s0 :: srest) =
          (ioBurstOf s0.duration :: (buildBursts 0 srest).1,
           (buildBursts 0 srest).2) := by
        simp only [buildBursts]
        rw [if_neg (by omega)]
      rw [if_neg hnallpos]
      cases hsr : srest with
      | nil =>
        subst hsr
        have hfin0 : (buildBursts 0 (s0 :: [])).2 = 0 := by
          rw [hstep]
          rfl
        have hrem : cpuBurst - (buildBursts 0 (s0 :: [])).2 > 0 := by
          rw [hfin0]
          omega
        have hltall : ∀ iob ∈ i0 :: irest, iob.afterCpu < cpuBurst := by
          intro x hx
          have hx2 := (hmembr x).mpr hx
          have hxs := List.mem_singleton.mp hx2
          subst hxs
          omega
        rw [if_pos hltall, hseq0, if_pos hrem, hstep]
        refine ⟨Alternating.cons rfl (Alternating.cons rfl (Alternating.nil _)),
          ?_, rfl, ?_⟩
        · intro b hb
          rcases List.mem_append.mp hb with hb1 | hb2
          · rcases List.mem_cons.mp hb1 with rfl | hb3
            · simpa [ioBurstOf] using (hmem s0 (List.mem_cons_self _ _)).2.2
            · simp [buildBursts] at hb3
          · simp only [List.mem_singleton] at hb2
            subst hb2
            simp only [cpuBurstOf, buildBursts]
            omega
        · rw [List.getLast?_concat]
          rfl
      | cons r0 rrest =>
        subst hsr
        have hne3 : r0 :: rrest ≠ [] := List.cons_ne_nil r0 rrest
        have hl2 := shape2.2.2.2 hne3
        have hinner_ne : (buildBursts 0 (r0 :: rrest)).1 ≠ [] := by
          intro hnil
          rw [hnil] at hl2
          simp at hl2
        have hfin2 : (buildBursts 0 (s0 :: r0 :: rrest)).2 =
            ((r0 :: rrest).getLast hne3).afterCpu := by
          rw [hstep]
          show (buildBursts 0 (r0 :: rrest)).2 = _
          rw [shape2.2.2.1]
          exact getLastD_map_of_ne_nil _ _ hne3 0
        have hlast_cons : (ioBurstOf s0.duration ::
            (buildBursts 0 (r0 :: rrest)).1).getLast?.map Burst.type =
            some BurstType.IOB := by
          cases hin : (buildBursts 0 (r0 :: rrest)).1 with
          | nil => exact absurd hin hinner_ne
          | cons x xs =>
            rw [List.getLast?_cons_cons]
            rw [hin] at hl2
            exact hl2.2
        have haltSeq : Alternating BurstType.IOB
            (ioBurstOf s0.duration :: (buildBursts 0 (r0 :: rrest)).1) :=
          Alternating.cons rfl shape2.1
        by_cases hl3 : ((r0 :: rrest).getLast hne3).afterCpu < cpuBurst
        · have hrem : cpuBurst - (buildBursts 0 (s0 :: r0 :: rrest)).2 > 0 := by
            rw [hfin2]
            omega
          have hltall : ∀ iob ∈ i0 :: irest, iob.afterCpu < cpuBurst := by
            intro x hx
            have hx2 := (hmembr x).mpr hx
            rcases List.mem_cons.mp hx2 with rfl | hx3
            · omega
            · have := pairwise_afterCpu_le_getLast (r0 :: rrest) hne3 hpwc.2 x hx3
              omega
          rw [if_pos hltall, hseq0, if_pos hrem, hstep]
          refine ⟨alternating_append_cpu _ haltSeq hlast_cons, ?_, ?_, ?_⟩
          · intro b hb
            rcases List.mem_append.mp hb with hb1 | hb2
            · rcases List.mem_cons.mp hb1 with rfl | hb3
              · simpa [ioBurstOf] using (hmem s0 (List.mem_cons_self _ _)).2.2
              · exact shape2.2.1 b hb3
            · simp only [List.mem_singleton] at hb2
              subst hb2
              simp only [cpuBurstOf]
              rw [shape2.2.2.1, getLastD_map_of_ne_nil _ _ hne3 0]
              omega
          · rw [List.cons_append]
            rfl
          · rw [List.getLast?_concat]
            rfl
        · have hle := (hmem _ (List.mem_cons_of_mem s0 (List.getLast_mem hne3))).2.1
          have hnrem : ¬ cpuBurst - (buildBursts 0 (s0 :: r0 :: rrest)).2 > 0 := by
            rw [hfin2]
            omega
          have hnall : ¬ ∀ iob ∈ i0 :: irest, iob.afterCpu < cpuBurst := by
            intro hall
            exact hl3 (hall _ ((hmembr _).mp
              (List.mem_cons_of_mem s0 (List.getLast_mem hne3))))
          rw [if_neg hnall, hseq0, if_neg hnrem, hstep]
          refine ⟨haltSeq, ?_, rfl, hlast_cons⟩
          · intro b hb
            rcases List.mem_cons.mp hb with rfl | hb3
            · simpa [ioBurstOf] using (hmem s0 (List.mem_cons_self _ _)).2.2
            · exact shape2.2.1 b hb3

/-- Witness for `createSimplePCB_alternating_cpu_bounded`: a concrete
process with cpuBurst 5 and interior I/O bursts after 2 and 4 CPU
units, whose sequence begins and ends with CPU. -/
theorem createSimplePCB_alternating_cpu_bounded_witness :
    Alternating BurstType.CPU
      (createSimplePCB 1 0 5 0 [⟨2, 1⟩, ⟨4, 2⟩]).burstSequence ∧
    (∀ b ∈ (createSimplePCB 1 0 5 0 [⟨2, 1⟩, ⟨4, 2⟩]).burstSequence,
      1 ≤ b.duration) ∧
    (createSimplePCB 1 0 5 0 [⟨2, 1⟩, ⟨4, 2⟩]).burstSequence.head?.map
      Burst.type = some BurstType.CPU ∧
    (createSimplePCB 1 0 5 0 [⟨2, 1⟩, ⟨4, 2⟩]).burstSequence.getLast?.map
      Burst.type = some BurstType.CPU := by
  have h := createSimplePCB_alternating_cpu_bounded 1 0 5 0 [⟨2, 1⟩, ⟨4, 2⟩]
    (by decide) (by decide) (by decide)
  have hc1 : ∀ iob ∈ [(⟨2, 1⟩ : IOBurstSpec), ⟨4, 2⟩], 0 < iob.afterCpu := by
    decide
  have hc2 : ∀ iob ∈ [(⟨2, 1⟩ : IOBurstSpec), ⟨4, 2⟩], iob.afterCpu < 5 := by
    decide
  rw [if_pos hc1, if_pos hc2] at h
  exact h

/-! ## Metrics field set (claim C7) -/

/-- A tiny workload that completes: one CPU-only process. -/
def tinyWorkload : List PCB := [createSimplePCB 1 0 1 0 []]

/-- C7 (counterexample): the metrics of a completed FCFS run contain no
`idleTime`, `maxWaiting`, `maxResponse` or `perProcess` fields, although
the run terminates all processes. -/
theorem metrics_missing_fields_counterexample :
    (runFCFS tinyWorkload 0).metrics.lookup "idleTime" = none ∧
    (runFCFS tinyWorkload 0).metrics.lookup "maxWaiting" = none ∧
    (runFCFS tinyWorkload 0).metrics.lookup "maxResponse" = none ∧
    (runFCFS tinyWorkload 0).metrics.lookup "perProcess" = none ∧
    ∀ p ∈ (runFCFS tinyWorkload 0).processes, p.state = ProcessState.TERMINATED := by
  refine ⟨rfl, rfl, rfl, rfl, by decide⟩

/-- C7 (amended): the metrics record of every run consists of exactly
the seven fields avgTurnaroundTime, avgWaitingTime, avgResponseTime,
cpuUtilization, throughput, totalTime and contextSwitches, in this
order; idleTime, maxWaiting, maxResponse and perProcess are not
produced. -/
theorem simResult_metrics_keys (alg : AlgSpec) (cst : Int) (ps : List PCB) :
    (runSchedulerSimulation alg cst ps).metrics.map Prod.fst =
      ["avgTurnaroundTime", "avgWaitingTime", "avgResponseTime",
       "cpuUtilization", "throughput", "totalTime", "contextSwitches"] := rfl

/-! ## Validation characterisation (claim C8) -/

theorem foldl_append_eq_nil_iff (f : α → List β) :
    ∀ (l : List α) (acc : List β),
      l.foldl (fun errs p => errs ++ f p) acc = [] ↔
        acc = [] ∧ ∀ p ∈ l, f p = [] := by
  intro l
  induction l with
  | nil => intro acc; simp
  | cons a t ih =>
    intro acc
    simp only [List.foldl_cons]
    rw [ih]
    simp only [List.append_eq_nil, List.forall_mem_cons]
    tauto

theorem if_singleton_eq_nil_iff {c : Prop} [Decidable c] (x : β) :
    (if c then [x] else []) = [] ↔ ¬ c := by
  split <;> simp_all

theorem dupMessages_eq_nil_iff (pid : Int) :
    ∀ l : List IOBurstSpec,
      (dupMessages pid l = [] ↔ l.Chain' fun a b => b.afterCpu = a.afterCpu → False)
  | [] => by simp [dupMessages]
  | [a] => by simp [dupMessages]
  | a :: b :: rest => by
    have ih := dupMessages_eq_nil_iff pid (b :: rest)
    simp only [dupMessages, List.append_eq_nil, List.chain'_cons]
    rw [if_singleton_eq_nil_iff]
    constructor
    · rintro ⟨h1, h2⟩
      exact ⟨fun he => h1 (by exact_mod_cast decide_eq_true (by exact_mod_cast he)), ih.mp h2⟩
    · rintro ⟨h1, h2⟩
      refine ⟨fun he => h1 (by simpa using he), ih.mpr h2⟩

theorem sorted_chain_ne_pairwise_lt :
    ∀ l : List IOBurstSpec,
      (l.Pairwise fun a b => a.afterCpu ≤ b.afterCpu) →
      (l.Chain' fun a b => b.afterCpu = a.afterCpu → False) →
      l.Pairwise fun a b => a.afterCpu < b.afterCpu
  | [] , _, _ => List.Pairwise.nil
  | [a], _, _ => by simp
  | a :: b :: t, hp, hc => by
    have hpc := List.pairwise_cons.mp hp
    have hcc := List.chain'_cons.mp hc
    have ih := sorted_chain_ne_pairwise_lt (b :: t) hpc.2 hcc.2
    refine List.pairwise_cons.mpr ⟨?_, ih⟩
    intro y hy
    have hab : a.afterCpu < b.afterCpu := by
      have hle := hpc.1 b (List.mem_cons_self _ _)
      have hne : ¬ (b.afterCpu = a.afterCpu) := hcc.1
      omega
    rcases List.mem_cons.mp hy with rfl | hy2
    · exact hab
    · have hby : b.afterCpu < y.afterCpu := (List.pairwise_cons.mp ih).1 y hy2
      omega

theorem pairwise_ne_chain'_of_sorted (l : List IOBurstSpec)
    (hs : l.Pairwise fun a b => afterCpuLe a b = true) :
    (dupMessages pid l = []) ↔ (l.Pairwise fun a b => a.afterCpu ≠ b.afterCpu) := by
  rw [dupMessages_eq_nil_iff]
  have hs2 : l.Pairwise fun a b => a.afterCpu ≤ b.afterCpu := by
    refine hs.imp ?_
    intro a b h
    simpa [afterCpuLe, decide_eq_true_eq] using h
  constructor
  · intro hc
    exact (sorted_chain_ne_pairwise_lt l hs2 hc).imp (fun h => ne_of_lt h)
  · intro hpw
    exact List.Pairwise.chain' (hpw.imp fun h he => h he.symm)

theorem forall_mem_enum_iff (l : List α) (P : α → Prop) :
    (∀ pair ∈ l.enum, P pair.2) ↔ ∀ x ∈ l, P x := by
  constructor
  · intro h x hx
    have hx2 : x ∈ l.enum.map Prod.snd := by
      rw [List.enum_map_snd]; exact hx
    rcases List.mem_map.mp hx2 with ⟨pair, hp, rfl⟩
    exact h pair hp
  · intro h pair hp
    apply h
    have hp2 : pair.2 ∈ l.enum.map Prod.snd := List.mem_map_of_mem _ hp
    rwa [List.enum_map_snd] at hp2

theorem processInputErrors_eq_nil_iff (p : ProcessInput) :
    processInputErrors p = [] ↔
      (0 < p.cpuBurst ∧ 0 ≤ p.arrivalTime ∧
        (p.ioEnabled = true →
          (∀ iob ∈ p.ioBursts,
            0 ≤ iob.afterCpu ∧ iob.afterCpu ≤ p.cpuBurst ∧ 0 < iob.duration) ∧
          p.ioBursts.Pairwise fun a b => a.afterCpu ≠ b.afterCpu)) := by
  unfold processInputErrors
  cases hioc : p.ioEnabled with
  | false =>
    simp only [hioc, Bool.false_eq_true, if_false, List.append_nil,
      List.append_eq_nil, if_singleton_eq_nil_iff, false_implies, and_true]
    omega
  | true =>
    simp only [hioc, if_true, List.append_eq_nil, if_singleton_eq_nil_iff,
      foldl_append_eq_nil_iff, true_and, true_implies, not_lt, not_le, not_or]
    rw [pairwise_ne_chain'_of_sorted _
      (pairwise_jsSort afterCpuLe afterCpuLe_total afterCpuLe_trans p.ioBursts)]
    rw [(jsSort_perm afterCpuLe p.ioBursts).pairwise_iff (fun hxy => hxy.symm)]
    rw [forall_mem_enum_iff p.ioBursts (fun iob =>
      (0 ≤ iob.afterCpu ∧ iob.afterCpu ≤ p.cpuBurst) ∧ 0 < iob.duration)]
    constructor
    · rintro ⟨⟨h1, h2⟩, h3, h4⟩
      refine ⟨by omega, by omega, fun iob hi => ?_, h4⟩
      have h5 := h3 iob hi
      omega
    · rintro ⟨h1, h2, h3, h4⟩
      refine ⟨⟨by omega, by omega⟩, fun iob hi => ?_, h4⟩
      have h5 := h3 iob hi
      omega

/-- C8: the validation accepts (valid = true, no errors) exactly when
the workload is non-empty and every process row has a positive CPU
burst, a non-negative arrival time and — when I/O is enabled — only
I/O bursts with `0 ≤ afterCpu ≤ cpuBurst`, positive duration and
pairwise-distinct `afterCpu`; each violation contributes an error
message, so the error list is empty only in this case. -/
theorem validateProcessInputs_iff (processInputs : List ProcessInput) :
    ((validateProcessInputs processInputs).1 = true ∧
      (validateProcessInputs processInputs).2 = []) ↔
    (processInputs ≠ [] ∧ ∀ p ∈ processInputs,
      0 < p.cpuBurst ∧ 0 ≤ p.arrivalTime ∧
      (p.ioEnabled = true →
        (∀ iob ∈ p.ioBursts,
          0 ≤ iob.afterCpu ∧ iob.afterCpu ≤ p.cpuBurst ∧ 0 < iob.duration) ∧
        p.ioBursts.Pairwise fun a b => a.afterCpu ≠ b.afterCpu)) := by
  cases processInputs with
  | nil => simp [validateProcessInputs]
  | cons p rest =>
    have herr := foldl_append_eq_nil_iff processInputErrors (p :: rest)
      ([] : List String)
    simp only [validateProcessInputs, List.isEmpty_eq_true, herr,
      processInputErrors_eq_nil_iff, List.cons_ne_nil, ne_eq,
      not_false_eq_true, true_and, and_self]

/-! ## Aging bounds (claim C10) -/

theorem getP_setP (procs : List PCB) (i j : Nat) (f : PCB → PCB) :
    getP (setP procs i f) j =
      if i = j ∧ j < procs.length then f (getP procs j) else getP procs j := by
  unfold getP setP
  rw [List.getD_eq_getElem?_getD, List.getD_eq_getElem?_getD, List.getElem?_modify]
  cases hj : procs[j]? with
  | none =>
    have hlen := List.getElem?_eq_none_iff.mp hj
    rw [if_neg]
    · simp
    · intro hc
      omega
  | some p =>
    have hlt : j < procs.length := by
      by_contra hc
      rw [List.getElem?_eq_none_iff.mpr (by omega)] at hj
      exact Option.noConfusion hj
    by_cases hij : i = j
    · rw [if_pos ⟨hij, hlt⟩]
      simp [hij, hj]
    · rw [if_neg (fun hc => hij hc.1)]
      simp [hij, hj]

/-- Relation between a process store after aging and before: priorities
have not increased, have stayed non-negative, and original priorities
are untouched. -/
def AgingBounds (after before : List PCB) : Prop :=
  ∀ j : Nat,
    (0 ≤ (getP before j).priority →
      0 ≤ (getP after j).priority ∧
      (getP after j).priority ≤ (getP before j).priority) ∧
    (getP after j).originalPriority = (getP before j).originalPriority

theorem agingBounds_refl (l : List PCB) : AgingBounds l l :=
  fun _ => ⟨fun h => ⟨h, le_refl _⟩, rfl⟩

theorem agingBounds_trans {a b c : List PCB}
    (h1 : AgingBounds b a) (h2 : AgingBounds c b) : AgingBounds c a := by
  intro j
  obtain ⟨hp1, ho1⟩ := h1 j
  obtain ⟨hp2, ho2⟩ := h2 j
  refine ⟨?_, ho2.trans ho1⟩
  intro h
  obtain ⟨hb0, hble⟩ := hp1 h
  obtain ⟨hc0, hcle⟩ := hp2 hb0
  exact ⟨hc0, hcle.trans hble⟩

theorem agePCB_bounds (t interval boost : Int) (hb : 0 ≤ boost) (p : PCB) :
    (0 ≤ p.priority → 0 ≤ (agePCB t interval boost p).priority ∧
      (agePCB t interval boost p).priority ≤ p.priority) ∧
    (agePCB t interval boost p).originalPriority = p.originalPriority := by
  unfold agePCB
  split
  · dsimp only
    split
    · rename_i hu
      have hbu : 0 ≤ boost * Int.fdiv (t - p.lastReadyTime) interval :=
        mul_nonneg hb (le_of_lt hu)
      unfold PCB.applyAging
      split
    
      · exact ⟨fun hpr => ⟨le_max_left _ _, max_le hpr (by omega)⟩, rfl⟩
      · exact ⟨fun hpr => ⟨hpr, le_refl _⟩, rfl⟩
    · exact ⟨fun hpr => ⟨hpr, le_refl _⟩, rfl⟩
  · exact ⟨fun hpr => ⟨hpr, le_refl _⟩, rfl⟩

theorem setP_agePCB_bounds (procs : List PCB) (i : Nat)
    (t interval boost : Int) (hb : 0 ≤ boost) :
    AgingBounds (setP procs i (agePCB t interval boost)) procs := by
  intro j
  rw [getP_setP]
  split
  · exact agePCB_bounds t interval boost hb (getP procs j)
  · exact ⟨fun h => ⟨h, le_refl _⟩, rfl⟩

theorem readyApplyAging_bounds (queue : List Nat)
    (t interval boost : Int) (hb : 0 ≤ boost) :
    ∀ procs : List PCB,
      AgingBounds (readyApplyAging procs queue t interval boost) procs := by
  induction queue with
  | nil => intro procs; exact agingBounds_refl _
  | cons i rest ih =>
    intro procs
    show AgingBounds ((i :: rest).foldl
      (fun acc k => setP acc k (agePCB t interval boost)) procs) procs
    rw [List.foldl_cons]
    exact agingBounds_trans
      (setP_agePCB_bounds procs i t interval boost hb) (ih _)

theorem readyApplyAging_length (queue : List Nat) (t interval boost : Int) :
    ∀ procs : List PCB,
      (readyApplyAging procs queue t interval boost).length = procs.length := by
  induction queue with
  | nil => intro procs; rfl
  | cons i rest ih =>
    intro procs
    show ((i :: rest).foldl
      (fun acc k => setP acc k (agePCB t interval boost)) procs).length = _
    rw [List.foldl_cons]
    show (readyApplyAging (setP procs i (agePCB t interval boost))
      rest t interval boost).length = procs.length
    rw [ih (setP procs i (agePCB t interval boost))]
    exact List.length_modify _ _ _

theorem getP_lt (l : List PCB) (j : Nat) (h : j < l.length) :
    getP l j = l[j] := by
  unfold getP
  rw [List.getD_eq_getElem?_getD, List.getElem?_eq_getElem h]
  rfl

/-- C10: however often `ReadyQueue.applyAging` is applied (any sequence
of calls with any queues, times and intervals, each with a non-negative
boost), every process's effective priority only decreases, never drops
below 0, never exceeds its `originalPriority`, and `originalPriority`
itself is untouched. -/
theorem applyAging_repeated_priority_invariant
    (procs : List PCB) (calls : List (List Nat × Int × Int × Int))
    (hb : ∀ c ∈ calls, 0 ≤ c.2.2.2)
    (hinv : ∀ p ∈ procs, 0 ≤ p.priority ∧ p.priority ≤ p.originalPriority) :
    AgingBounds (calls.foldl (fun acc c =>
      readyApplyAging acc c.1 c.2.1 c.2.2.1 c.2.2.2) procs) procs ∧
    ∀ q ∈ calls.foldl (fun acc c =>
      readyApplyAging acc c.1 c.2.1 c.2.2.1 c.2.2.2) procs,
      0 ≤ q.priority ∧ q.priority ≤ q.originalPriority := by
  have hlen : ∀ (cs : List (List Nat × Int × Int × Int)) (ps : List PCB),
      (cs.foldl (fun acc c =>
        readyApplyAging acc c.1 c.2.1 c.2.2.1 c.2.2.2) ps).length = ps.length := by
    intro cs
    induction cs with
    | nil => intro ps; rfl
    | cons c rest ih =>
      intro ps
      rw [List.foldl_cons, ih, readyApplyAging_length]
  have hab : ∀ (cs : List (List Nat × Int × Int × Int)),
      (∀ c ∈ cs, 0 ≤ c.2.2.2) → ∀ ps : List PCB,
      AgingBounds (cs.foldl (fun acc c =>
        readyApplyAging acc c.1 c.2.1 c.2.2.1 c.2.2.2) ps) ps := by
    intro cs
    induction cs with
    | nil => intro _ ps; exact agingBounds_refl _
    | cons c rest ih =>
      intro hbc ps
      rw [List.foldl_cons]
      exact agingBounds_trans
        (readyApplyAging_bounds c.1 c.2.1 c.2.2.1 c.2.2.2
          (hbc c (List.mem_cons_self _ _)) ps)
        (ih (fun x hx => hbc x (List.mem_cons_of_mem _ hx)) _)
  refine ⟨hab calls hb procs, ?_⟩
  intro q hq
  obtain ⟨j, hj, hqe⟩ := List.mem_iff_getElem.mp hq
  have hjlen : j < procs.length := by
    rw [← hlen calls procs]; exact hj
  have hgq : getP (calls.foldl (fun acc c =>
      readyApplyAging acc c.1 c.2.1 c.2.2.1 c.2.2.2) procs) j = q := by
    rw [getP_lt _ _ hj]; exact hqe
  have hmem : getP procs j ∈ procs := by
    rw [getP_lt _ _ hjlen]; exact List.getElem_mem _
  obtain ⟨h0, hle⟩ := hinv (getP procs j) hmem
  obtain ⟨hpr, horig⟩ := hab calls hb procs j
  obtain ⟨hq0, hqle⟩ := hpr h0
  rw [hgq] at hq0 hqle horig
  exact ⟨hq0, le_trans (le_trans hqle hle) (le_of_eq horig.symm)⟩

/-- Witness for `applyAging_repeated_priority_invariant`: one process of
priority 3 ready since t=0, aged twice at t=5 with interval 2,
boost 1. -/
theorem applyAging_repeated_priority_invariant_witness :
    AgingBounds ([([0], 5, 2, 1), ([0], 7, 2, 1)].foldl (fun acc c =>
      readyApplyAging acc c.1 c.2.1 c.2.2.1 c.2.2.2)
        [mkPCB 1 0 3 [cpuBurstOf 4]])
      [mkPCB 1 0 3 [cpuBurstOf 4]] ∧
    ∀ q ∈ [([0], 5, 2, 1), ([0], 7, 2, 1)].foldl (fun acc c =>
      readyApplyAging acc c.1 c.2.1 c.2.2.1 c.2.2.2)
        [mkPCB 1 0 3 [cpuBurstOf 4]],
      0 ≤ q.priority ∧ q.priority ≤ q.originalPriority :=
  applyAging_repeated_priority_invariant [mkPCB 1 0 3 [cpuBurstOf 4]]
    [([0], 5, 2, 1), ([0], 7, 2, 1)] (by decide) (by decide)

/-! ## Round Robin quantum bound (claim C5) -/

/-- The Round Robin engine invariant: a dispatched process has never
executed more than `q` ticks in its current slice.
`timeInCurrentBurst` counts exactly the PROCESS ticks the running
process has executed since it was dispatched: selection resets it to 0,
step 8 increments it by 1 for each PROCESS timeline entry, and
preemption, termination and moving to I/O clear it. -/
def RRInv (q : Int) (s : SimState) : Prop :=
  ∀ r, s.runningProcess = some r → s.timeInCurrentBurst ≤ q

/-- The engine state right before step 8 executes a tick: steps 1–7
applied to the state at the top of the loop. -/
def preExecState (alg : AlgSpec) (cst : Int) (s : SimState) : SimState :=
  selectionPhase alg (preemptionPhase alg cst
    (ioCompletionPhase (admitArrivals s.procs.length s)))

theorem selectionPhase_run_tICB (alg : AlgSpec) (s : SimState) :
    ((selectionPhase alg s).runningProcess = s.runningProcess ∧
     (selectionPhase alg s).timeInCurrentBurst = s.timeInCurrentBurst) ∨
    (selectionPhase alg s).timeInCurrentBurst = 0 := by
  unfold selectionPhase
  cases hrun : s.runningProcess with
  | some r0 => exact Or.inl ⟨hrun, rfl⟩
  | none =>
    by_cases hemp : s.readyQueue.isEmpty = true
    · rw [if_pos hemp]
      exact Or.inl ⟨hrun, rfl⟩
    · rw [if_neg hemp]
      dsimp only
      cases hsel : (alg.select s.procs s.readyQueue s.currentTime).2 with
      | nil => exact Or.inl ⟨rfl, rfl⟩
      | cons r1 rest => exact Or.inr rfl

theorem selectionPhase_lt (alg : AlgSpec) (q : Int) (hq : 1 ≤ q) (s : SimState)
    (h : ∀ r, s.runningProcess = some r → s.timeInCurrentBurst < q) :
    ∀ r, (selectionPhase alg s).runningProcess = some r →
      (selectionPhase alg s).timeInCurrentBurst < q := by
  intro r hr
  rcases selectionPhase_run_tICB alg s with ⟨hrn, htn⟩ | ht0
  · rw [htn]
    exact h r (hrn ▸ hr)
  · rw [ht0]
    omega

theorem rr_preemptionPhase_lt (q cst : Int) (s : SimState) :
    ∀ r, (preemptionPhase (rrSpec q) cst s).runningProcess = some r →
      (preemptionPhase (rrSpec q) cst s).timeInCurrentBurst < q := by
  intro r hr
  cases hrun : s.runningProcess with
  | none =>
    rw [preemptionPhase_of_none (rrSpec q) cst s hrun] at hr
    rw [hrun] at hr
    exact Option.noConfusion hr
  | some r0 =>
    by_cases hge : s.timeInCurrentBurst ≥ q
    · have hnone : (preemptionPhase (rrSpec q) cst s).runningProcess = none := by
        unfold preemptionPhase
        simp [rrSpec, hrun, hge]
      rw [hnone] at hr
      exact Option.noConfusion hr
    · have heq : preemptionPhase (rrSpec q) cst s = s := by
        unfold preemptionPhase
        simp [rrSpec, hrun, hge]
        rw [← hrun]
      rw [heq] at hr ⊢
      omega

theorem executePhase_le (cst q : Int) (s : SimState)
    (h : ∀ r, s.runningProcess = some r → s.timeInCurrentBurst < q) :
    ∀ r, (executePhase cst s).runningProcess = some r →
      (executePhase cst s).timeInCurrentBurst ≤ q := by
  intro r hr
  unfold executePhase at hr ⊢
  cases hrun : s.runningProcess with
  | none =>
    simp only [hrun] at hr
    exact Option.noConfusion hr
  | some r0 =>
    simp only [hrun] at hr ⊢
    by_cases hc : ((getP s.procs r0).executeTick).2 = true
    · rw [if_pos hc] at hr
      dsimp only at hr
      exact Option.noConfusion hr
    · rw [if_neg hc] at hr ⊢
      dsimp only at hr ⊢
      have := h r0 hrun
      omega

theorem simStep_rr_inv (q cst : Int) (hq : 1 ≤ q) (s : SimState)
    (h : RRInv q s) : RRInv q (simStep (rrSpec q) cst s) := by
  intro r hr
  unfold simStep at hr ⊢
  by_cases hcs :
      (ioCompletionPhase (admitArrivals s.procs.length s)).contextSwitchRemaining > 0
  · rw [if_pos hcs] at hr ⊢
    have ha := admitArrivals_preserves s.procs.length s
    have hb := ioCompletionPhase_preserves (admitArrivals s.procs.length s)
    have hr2 : s.runningProcess = some r := by
      rw [← ha.2.1, ← hb.2.1]
      exact hr
    show (ioCompletionPhase (admitArrivals s.procs.length s)).timeInCurrentBurst ≤ q
    rw [hb.2.2.1, ha.2.2.1]
    exact h r hr2
  · rw [if_neg hcs] at hr ⊢
    have hu := selectionPhase_lt (rrSpec q) q hq
      (preemptionPhase (rrSpec q) cst
        (ioCompletionPhase (admitArrivals s.procs.length s)))
      (rr_preemptionPhase_lt q cst
        (ioCompletionPhase (admitArrivals s.procs.length s)))
    exact executePhase_le cst q _ hu r hr

/-- C5: in Round Robin with quantum `q ≥ 1`, for every workload, every
context-switch cost and every tick `n`: the engine state reached after
`n` iterations keeps `timeInCurrentBurst ≤ q` whenever a process is
dispatched, and at the moment step 8 is about to execute a PROCESS tick
(after arrivals, I/O completion, the quantum-expiry preemption check and
selection) the dispatched process has executed strictly fewer than `q`
ticks in its slice.  Since `timeInCurrentBurst` counts exactly the
consecutive PROCESS timeline ticks since dispatch and is cleared on
preemption, termination and entry to the I/O queue, no process occupies
the CPU for more than `q` consecutive ticks without one of these
events. -/
theorem roundRobin_quantum_bound (ps : List PCB) (q cst : Int)
    (hq : 1 ≤ q) (n : Nat) :
    RRInv q ((simStep (rrSpec q) cst)^[n] (initState ps)) ∧
    ∀ r, (preExecState (rrSpec q) cst
        ((simStep (rrSpec q) cst)^[n] (initState ps))).runningProcess = some r →
      (preExecState (rrSpec q) cst
        ((simStep (rrSpec q) cst)^[n] (initState ps))).timeInCurrentBurst < q := by
  have hiter : ∀ m : Nat, RRInv q ((simStep (rrSpec q) cst)^[m] (initState ps)) := by
    intro m
    induction m with
    | zero =>
      intro r hr
      exact absurd hr (by simp [initState])
    | succ k ih =>
      rw [Function.iterate_succ_apply']
      exact simStep_rr_inv q cst hq _ ih
  refine ⟨hiter n, ?_⟩
  exact selectionPhase_lt (rrSpec q) q hq _
    (rr_preemptionPhase_lt q cst _)

/-- Witness for `roundRobin_quantum_bound`: the S4 Round Robin workload
with quantum 2 after 3 engine iterations. -/
theorem roundRobin_quantum_bound_witness :
    RRInv 2 ((simStep (rrSpec 2) 0)^[3] (initState s1Workload)) ∧
    ∀ r, (preExecState (rrSpec 2) 0
        ((simStep (rrSpec 2) 0)^[3] (initState s1Workload))).runningProcess = some r →
      (preExecState (rrSpec 2) 0
        ((simStep (rrSpec 2) 0)^[3] (initState s1Workload))).timeInCurrentBurst < 2 :=
  roundRobin_quantum_bound s1Workload 2 0 (by decide) 3

/-! ## HRRN: positive remaining time in the ready queue (claim C9) -/

/-- Every burst of every stored process has a positive duration. -/
def BurstsPos (procs : List PCB) : Prop :=
  ∀ p ∈ procs, ∀ b ∈ p.burstSequence, 1 ≤ b.duration

/-- Non-complete processes have a positive remaining burst time. -/
def QPos (p : PCB) : Prop :=
  ¬ p.isComplete = true → 1 ≤ p.remainingBurstTime

theorem moveToNext_bursts (p : PCB) :
    ((p.moveToNextBurst).1).burstSequence = p.burstSequence := by
  unfold PCB.moveToNextBurst
  dsimp only
  cases hg : p.burstSequence.get? (p.currentBurstIndex + 1) <;> simp [hg]

theorem moveToNext_pos (p : PCB)
    (hA : ∀ b ∈ p.burstSequence, 1 ≤ b.duration)
    (hp : 1 ≤ p.remainingBurstTime) :
    1 ≤ ((p.moveToNextBurst).1).remainingBurstTime := by
  unfold PCB.moveToNextBurst
  dsimp only
  cases hg : p.burstSequence.get? (p.currentBurstIndex + 1) with
  | none => simp only [hg]; exact hp
  | some b => simp only [hg]; exact hA b (List.get?_mem hg)

theorem moveToNext_qpos (p : PCB)
    (hA : ∀ b ∈ p.burstSequence, 1 ≤ b.duration) :
    QPos ((p.moveToNextBurst).1) := by
  unfold QPos PCB.moveToNextBurst PCB.isComplete
  dsimp only
  cases hg : p.burstSequence.get? (p.currentBurstIndex + 1) with
  | none =>
    simp only [hg]
    intro hc
    exact absurd (by
      simpa using (List.get?_eq_none.mp hg)) (by simpa using hc)
  | some b =>
    simp only [hg]
    intro _
    exact hA b (List.get?_mem hg)

theorem qpos_moveToNext (p : PCB)
    (hA : ∀ b ∈ p.burstSequence, 1 ≤ b.duration) (_ : QPos p) :
    QPos ((p.moveToNextBurst).1) :=
  moveToNext_qpos p hA

theorem getP_ge (l : List PCB) (j : Nat) (h : l.length ≤ j) :
    getP l j = dummyPCB := by
  unfold getP
  rw [List.getD_eq_getElem?_getD, List.getElem?_eq_none_iff.mpr h]
  rfl

theorem qpos_dummy : QPos dummyPCB := by
  intro hc
  exact absurd rfl hc

theorem burstsPos_getP (procs : List PCB) (h : BurstsPos procs) (j : Nat) :
    ∀ b ∈ (getP procs j).burstSequence, 1 ≤ b.duration := by
  by_cases hj : j < procs.length
  · rw [getP_lt _ _ hj]
    exact h _ (List.getElem_mem _)
  · rw [getP_ge _ _ (by omega)]
    intro b hb
    simp [dummyPCB] at hb

theorem getP_setP_bursts (procs : List PCB) (i j : Nat) (f : PCB → PCB)
    (hf : ∀ p, (f p).burstSequence = p.burstSequence) :
    (getP (setP procs i f) j).burstSequence = (getP procs j).burstSequence := by
  rw [getP_setP]
  split
  · exact hf _
  · rfl

theorem burstsPos_setP (procs : List PCB) (i : Nat) (f : PCB → PCB)
    (hf : ∀ p, (f p).burstSequence = p.burstSequence) (h : BurstsPos procs) :
    BurstsPos (setP procs i f) := by
  intro p hp
  obtain ⟨j, hj, rfl⟩ := List.mem_iff_getElem.mp hp
  have hlen : (setP procs i f).length = procs.length := List.length_modify _ _ _
  rw [← getP_lt (setP procs i f) j hj]
  rw [getP_setP_bursts procs i j f hf]
  exact burstsPos_getP procs h j

theorem setP_length (procs : List PCB) (i : Nat) (f : PCB → PCB) :
    (setP procs i f).length = procs.length :=
  List.length_modify _ _ _

theorem isComplete_of_core (p q : PCB)
    (hb : p.burstSequence = q.burstSequence)
    (hi : p.currentBurstIndex = q.currentBurstIndex) :
    p.isComplete = q.isComplete := by
  unfold PCB.isComplete
  rw [hb, hi]

theorem qpos_of_core (p q : PCB)
    (hb : p.burstSequence = q.burstSequence)
    (hi : p.currentBurstIndex = q.currentBurstIndex)
    (hr : p.remainingBurstTime = q.remainingBurstTime)
    (h : QPos q) : QPos p := by
  unfold QPos
  rw [hr, isComplete_of_core p q hb hi]
  exact h

theorem getP_setP_ne (procs : List PCB) (i j : Nat) (f : PCB → PCB)
    (h : ¬ i = j) : getP (setP procs i f) j = getP procs j := by
  rw [getP_setP, if_neg]
  intro hc
  exact h hc.1

theorem getP_setP_self (procs : List PCB) (i : Nat) (f : PCB → PCB)
    (h : i < procs.length) : getP (setP procs i f) i = f (getP procs i) := by
  rw [getP_setP, if_pos ⟨rfl, h⟩]

theorem core_setP (procs : List PCB) (i : Nat) (f : PCB → PCB)
    (hb : ∀ p, (f p).burstSequence = p.burstSequence)
    (hi : ∀ p, (f p).currentBurstIndex = p.currentBurstIndex)
    (hr : ∀ p, (f p).remainingBurstTime = p.remainingBurstTime) (j : Nat) :
    (getP (setP procs i f) j).burstSequence = (getP procs j).burstSequence ∧
    (getP (setP procs i f) j).currentBurstIndex = (getP procs j).currentBurstIndex ∧
    (getP (setP procs i f) j).remainingBurstTime = (getP procs j).remainingBurstTime := by
  rw [getP_setP]
  split
  · exact ⟨hb _, hi _, hr _⟩
  · exact ⟨rfl, rfl, rfl⟩

theorem qpos_setP (procs : List PCB) (i : Nat) (f : PCB → PCB)
    (hb : ∀ p, (f p).burstSequence = p.burstSequence)
    (hi : ∀ p, (f p).currentBurstIndex = p.currentBurstIndex)
    (hr : ∀ p, (f p).remainingBurstTime = p.remainingBurstTime) (j : Nat)
    (h : QPos (getP procs j)) : QPos (getP (setP procs i f) j) := by
  obtain ⟨h1, h2, h3⟩ := core_setP procs i f hb hi hr j
  exact qpos_of_core _ _ h1 h2 h3 h

theorem burstsPos_of_pointwise (a b : List PCB)
    (hb : ∀ j, (getP a j).burstSequence = (getP b j).burstSequence)
    (h : BurstsPos b) : BurstsPos a := by
  intro p hp
  obtain ⟨j, hj, rfl⟩ := List.mem_iff_getElem.mp hp
  rw [← getP_lt a j hj, hb j]
  exact burstsPos_getP b h j

/-- Full behavioural specification of `IOQueue.tick` over the store:
the store keeps its length and every burst sequence, processes outside
the queue are untouched, positivity of remaining time is preserved
pointwise, the kept entries and the completed entries partition the old
queue, and every completed process again satisfies `QPos` (its next
burst was loaded, or it is complete). -/
theorem ioQueueTick_spec (ioq : List (Nat × Int)) :
    ∀ procs : List PCB, BurstsPos procs →
      (ioQueueTick procs ioq).1.length = procs.length ∧
      (∀ j, (getP (ioQueueTick procs ioq).1 j).burstSequence =
        (getP procs j).burstSequence) ∧
      (∀ j, j ∉ ioq.map Prod.fst → getP (ioQueueTick procs ioq).1 j = getP procs j) ∧
      (∀ j, QPos (getP procs j) → QPos (getP (ioQueueTick procs ioq).1 j)) ∧
      ((ioQueueTick procs ioq).2.1.map Prod.fst ++
        (ioQueueTick procs ioq).2.2).Perm (ioq.map Prod.fst) ∧
      (∀ i ∈ (ioQueueTick procs ioq).2.2, QPos (getP (ioQueueTick procs ioq).1 i)) := by
  induction ioq with
  | nil =>
    intro procs _
    refine ⟨rfl, fun j => rfl, fun j _ => rfl, fun j h => h, List.Perm.refl _, ?_⟩
    intro i hi
    simp [ioQueueTick] at hi
  | cons e rest ih =>
    intro procs hA
    obtain ⟨i, r⟩ := e
    by_cases hr : r - 1 ≤ 0
    · have hmove : ∀ p : PCB, (PCB.moveToNextBurst p).1.burstSequence =
          p.burstSequence := fun p => moveToNext_bursts p
      have hA2 : BurstsPos (setP procs i (fun p => (p.moveToNextBurst).1)) :=
        burstsPos_setP procs i _ hmove hA
      obtain ⟨h1, h2, h3, h4, h5, h6⟩ := ih (setP procs i (fun p => (p.moveToNextBurst).1)) hA2
      have heq : ioQueueTick procs ((i, r) :: rest) =
          ((ioQueueTick (setP procs i (fun p => (p.moveToNextBurst).1)) rest).1,
           (ioQueueTick (setP procs i (fun p => (p.moveToNextBurst).1)) rest).2.1,
           i :: (ioQueueTick (setP procs i (fun p => (p.moveToNextBurst).1)) rest).2.2) := by
        simp only [ioQueueTick]
        rw [if_pos hr]
      rw [heq]
      have hqposI : QPos (getP (setP procs i (fun p => (p.moveToNextBurst).1)) i) := by
        by_cases hi : i < procs.length
        · rw [getP_setP_self procs i _ hi]
          exact moveToNext_qpos _ (burstsPos_getP procs hA i)
        · rw [getP_setP, if_neg (fun hc => hi hc.2), getP_ge procs i (by omega)]
          exact qpos_dummy
      refine ⟨h1.trans (setP_length procs i _), ?_, ?_, ?_, ?_, ?_⟩
      · intro j
        exact (h2 j).trans (getP_setP_bursts procs i j _ hmove)
      · intro j hj
        simp only [List.map_cons, List.mem_cons, not_or] at hj
        exact (h3 j hj.2).trans (getP_setP_ne procs i j _ (fun hc => hj.1 hc.symm))
      · intro j hq
        refine h4 j ?_
        by_cases hij : i = j
        · subst hij
          exact hqposI
        · rw [getP_setP_ne procs i j _ hij]
          exact hq
      · exact List.perm_middle.trans (List.Perm.cons i h5)
      · intro k hk
        rcases List.mem_cons.mp hk with hk | hk
        · subst hk
          exact h4 k hqposI
        · exact h6 k hk
    · obtain ⟨h1, h2, h3, h4, h5, h6⟩ := ih procs hA
      have heq : ioQueueTick procs ((i, r) :: rest) =
          ((ioQueueTick procs rest).1,
           (i, r - 1) :: (ioQueueTick procs rest).2.1,
           (ioQueueTick procs rest).2.2) := by
        simp only [ioQueueTick]
        rw [if_neg hr]
      rw [heq]
      refine ⟨h1, h2, ?_, h4, ?_, h6⟩
      · intro j hj
        simp only [List.map_cons, List.mem_cons, not_or] at hj
        exact h3 j hj.2
      · simpa using List.Perm.cons i h5

/-- Two stores agree in length and, pointwise, on the three fields that
determine burst progress (burst sequence, burst index, remaining time). -/
def CoreEq (a b : List PCB) : Prop :=
  a.length = b.length ∧ ∀ j,
    (getP a j).burstSequence = (getP b j).burstSequence ∧
    (getP a j).currentBurstIndex = (getP b j).currentBurstIndex ∧
    (getP a j).remainingBurstTime = (getP b j).remainingBurstTime

theorem coreEq_refl (a : List PCB) : CoreEq a a :=
  ⟨rfl, fun _ => ⟨rfl, rfl, rfl⟩⟩

theorem coreEq_trans (a b c : List PCB) (h1 : CoreEq a b) (h2 : CoreEq b c) :
    CoreEq a c := by
  refine ⟨h1.1.trans h2.1, fun j => ?_⟩
  obtain ⟨x1, x2, x3⟩ := h1.2 j
  obtain ⟨y1, y2, y3⟩ := h2.2 j
  exact ⟨x1.trans y1, x2.trans y2, x3.trans y3⟩

theorem coreEq_setP (procs : List PCB) (i : Nat) (f : PCB → PCB)
    (hb : ∀ p, (f p).burstSequence = p.burstSequence)
    (hi : ∀ p, (f p).currentBurstIndex = p.currentBurstIndex)
    (hr : ∀ p, (f p).remainingBurstTime = p.remainingBurstTime) :
    CoreEq (setP procs i f) procs :=
  ⟨setP_length procs i f, core_setP procs i f hb hi hr⟩

theorem coreEq_qpos (a b : List PCB) (h : CoreEq a b) (j : Nat)
    (hq : QPos (getP b j)) : QPos (getP a j) := by
  obtain ⟨x1, x2, x3⟩ := h.2 j
  exact qpos_of_core _ _ x1 x2 x3 hq

theorem coreEq_bursts (a b : List PCB) (h : CoreEq a b) (hp : BurstsPos b) :
    BurstsPos a :=
  burstsPos_of_pointwise a b (fun j => (h.2 j).1) hp

theorem coreEq_remaining (a b : List PCB) (h : CoreEq a b) (j : Nat) :
    (getP a j).remainingBurstTime = (getP b j).remainingBurstTime :=
  (h.2 j).2.2

/-- The reachability invariant of the HRRN engine run over the initial
(sorted) store `procs0`: burst durations stay positive, incomplete
processes keep a positive remaining time, every queued process has a
positive remaining time, all queue/running references point below the
arrival cursor, the pending suffix is untouched, and the ready queue,
the I/O queue and the running slot are mutually disjoint and
duplicate-free. -/
structure HInv (procs0 : List PCB) (s : SimState) : Prop where
  bursts : BurstsPos s.procs
  qpos : ∀ j, QPos (getP s.procs j)
  ready_pos : ∀ i ∈ s.readyQueue, 1 ≤ (getP s.procs i).remainingBurstTime
  ready_lt : ∀ i ∈ s.readyQueue, i < s.processArrivalIndex
  waitq_lt : ∀ e ∈ s.ioQueue, e.1 < s.processArrivalIndex
  run_lt : ∀ r, s.runningProcess = some r → r < s.processArrivalIndex
  arr_le : s.processArrivalIndex ≤ s.procs.length
  len_eq : s.procs.length = procs0.length
  pending : ∀ j, s.processArrivalIndex ≤ j → getP s.procs j = getP procs0 j
  run_ready : ∀ r, s.runningProcess = some r → r ∉ s.readyQueue
  run_waitq : ∀ r, s.runningProcess = some r → r ∉ s.ioQueue.map Prod.fst
  waitq_ready : ∀ i ∈ s.ioQueue.map Prod.fst, i ∉ s.readyQueue
  waitq_nodup : (s.ioQueue.map Prod.fst).Nodup
  ready_nodup : s.readyQueue.Nodup

/-- The invariant holds at the initial state, for any input list whose
burst durations are positive and whose processes start with a positive
remaining time. -/
theorem hinv_init (ps : List PCB) (hA : BurstsPos ps)
    (hR : ∀ p ∈ ps, 1 ≤ p.remainingBurstTime) :
    HInv (jsSort arrivalOnlyLe ps) (initState ps) := by
  have hA0 : BurstsPos (jsSort arrivalOnlyLe ps) := by
    intro p hp
    exact hA p ((mem_jsSort arrivalOnlyLe ps p).mp hp)
  refine ⟨hA0, ?_, ?_, ?_, ?_, ?_, ?_, rfl, fun j _ => rfl, ?_, ?_, ?_, ?_, ?_⟩
  · intro j
    show QPos (getP (jsSort arrivalOnlyLe ps) j)
    by_cases hj : j < (jsSort arrivalOnlyLe ps).length
    · intro _
      rw [getP_lt _ _ hj]
      exact hR _ ((mem_jsSort arrivalOnlyLe ps _).mp (List.getElem_mem hj))
    · rw [getP_ge _ _ (by omega)]
      exact qpos_dummy
  · intro i hi
    simp [initState] at hi
  · intro i hi
    simp [initState] at hi
  · intro e he
    simp [initState] at he
  · intro r hr
    simp [initState] at hr
  · exact Nat.zero_le _
  · intro r hr
    simp [initState] at hr
  · intro r hr
    simp [initState] at hr
  · intro i hi
    simp [initState] at hi
  · exact List.nodup_nil
  · exact List.nodup_nil

/-- One admission in step 1 preserves the invariant. -/
theorem admit_step_hinv (procs0 : List PCB)
    (hR : ∀ p ∈ procs0, 1 ≤ p.remainingBurstTime) (s : SimState)
    (h : HInv procs0 s)
    (hc1 : s.processArrivalIndex < s.procs.length) :
    HInv procs0
      { s with
        procs := setP (setP s.procs s.processArrivalIndex
            (fun p => { p with
              state := ProcessState.READY
              lastReadyTime := s.currentTime }))
          s.processArrivalIndex (fun p => { p with state := ProcessState.READY })
        readyQueue := s.readyQueue ++ [s.processArrivalIndex]
        stateTransitions := s.stateTransitions ++
          [⟨s.currentTime, (getP s.procs s.processArrivalIndex).pid,
            ProcessState.NEW, ProcessState.READY⟩]
        processArrivalIndex := s.processArrivalIndex + 1 } := by
  have ce : CoreEq (setP (setP s.procs s.processArrivalIndex
      (fun p => { p with
        state := ProcessState.READY
        lastReadyTime := s.currentTime }))
      s.processArrivalIndex (fun p => { p with state := ProcessState.READY })) s.procs :=
    coreEq_trans _ _ _
      (coreEq_setP _ _ _ (fun p => rfl) (fun p => rfl) (fun p => rfl))
      (coreEq_setP _ _ _ (fun p => rfl) (fun p => rfl) (fun p => rfl))
  have hunt : ∀ j, ¬ s.processArrivalIndex = j →
      getP (setP (setP s.procs s.processArrivalIndex
        (fun p => { p with
          state := ProcessState.READY
          lastReadyTime := s.currentTime }))
        s.processArrivalIndex (fun p => { p with state := ProcessState.READY })) j =
      getP s.procs j := by
    intro j hj
    rw [getP_setP_ne _ _ _ _ hj, getP_setP_ne _ _ _ _ hj]
  refine ⟨coreEq_bursts _ _ ce h.bursts, fun j => coreEq_qpos _ _ ce j (h.qpos j),
    ?_, ?_, ?_, ?_, ?_, ce.1.trans h.len_eq, ?_, ?_, ?_, ?_, h.waitq_nodup, ?_⟩
  · intro k hk
    rw [coreEq_remaining _ _ ce k]
    rcases List.mem_append.mp hk with hk | hk
    · exact h.ready_pos k hk
    · rw [List.mem_singleton.mp hk]
      rw [h.pending s.processArrivalIndex (Nat.le_refl _)]
      have hlt : s.processArrivalIndex < procs0.length := by
        rw [← h.len_eq]
        exact hc1
      rw [getP_lt _ _ hlt]
      exact hR _ (List.getElem_mem hlt)
  · intro k hk
    rcases List.mem_append.mp hk with hk | hk
    · exact Nat.lt_succ_of_lt (h.ready_lt k hk)
    · rw [List.mem_singleton.mp hk]
      exact Nat.lt_succ_self _
  · intro e he
    exact Nat.lt_succ_of_lt (h.waitq_lt e he)
  · intro r hr
    exact Nat.lt_succ_of_lt (h.run_lt r hr)
  · show s.processArrivalIndex + 1 ≤ _
    rw [ce.1]
    omega
  · intro j hj
    have hj2 : s.processArrivalIndex + 1 ≤ j := hj
    rw [hunt j (by omega)]
    exact h.pending j (by omega)
  · intro r hr
    intro hmem
    rcases List.mem_append.mp hmem with hmem | hmem
    · exact h.run_ready r hr hmem
    · rw [List.mem_singleton.mp hmem] at hr
      exact absurd (h.run_lt _ hr) (lt_irrefl _)
  · exact h.run_waitq
  · intro k hk hmem
    rcases List.mem_append.mp hmem with hmem | hmem
    · exact h.waitq_ready k hk hmem
    · rw [List.mem_singleton.mp hmem] at hk
      obtain ⟨e, he, hfst⟩ := List.mem_map.mp hk
      have := h.waitq_lt e he
      omega
  · refine List.Nodup.append h.ready_nodup (List.nodup_singleton _) ?_
    intro a ha hb
    rw [List.mem_singleton.mp hb] at ha
    exact absurd (h.ready_lt _ ha) (lt_irrefl _)

/-- Step 1 (`admitArrivals`) preserves the invariant. -/
theorem admitArrivals_hinv (procs0 : List PCB)
    (hR : ∀ p ∈ procs0, 1 ≤ p.remainingBurstTime) (fuel : Nat) :
    ∀ s : SimState, HInv procs0 s → HInv procs0 (admitArrivals fuel s) := by
  induction fuel with
  | zero => intro s h; exact h
  | succ n ih =>
    intro s h
    by_cases hc : s.processArrivalIndex < s.procs.length ∧
        (getP s.procs s.processArrivalIndex).arrivalTime ≤ s.currentTime
    · simp only [admitArrivals, if_pos hc]
      exact ih _ (admit_step_hinv procs0 hR s h hc.1)
    · simp only [admitArrivals, if_neg hc]
      exact h

/-- Re-admitting one completed I/O process preserves the invariant,
provided the process reference is in range, disjoint from the queues and
the running slot, and satisfies `QPos`. -/
theorem ioReadmission_hinv (procs0 : List PCB) (st : SimState) (i : Nat)
    (h : HInv procs0 st)
    (hlt : i < st.processArrivalIndex)
    (hq : QPos (getP st.procs i))
    (hnr : i ∉ st.readyQueue)
    (hnw : i ∉ st.ioQueue.map Prod.fst)
    (hrun : ∀ r, st.runningProcess = some r → ¬ r = i) :
    HInv procs0 (ioReadmission st i) := by
  by_cases hcomp : (getP st.procs i).isComplete = true
  · simp only [ioReadmission, if_pos hcomp]
    exact h
  · have heq : ioReadmission st i =
        { st with
          procs := setP (setP st.procs i
              (fun p => { p with lastReadyTime := st.currentTime })) i
            (fun p => { p with state := ProcessState.READY })
          readyQueue := st.readyQueue ++ [i]
          stateTransitions := st.stateTransitions ++
            [⟨st.currentTime, (getP st.procs i).pid,
              ProcessState.WAITING, ProcessState.READY⟩] } := by
      simp only [ioReadmission, if_neg hcomp]
      rfl
    rw [heq]
    have ce : CoreEq (setP (setP st.procs i
        (fun p => { p with lastReadyTime := st.currentTime })) i
        (fun p => { p with state := ProcessState.READY })) st.procs :=
      coreEq_trans _ _ _
        (coreEq_setP _ _ _ (fun p => rfl) (fun p => rfl) (fun p => rfl))
        (coreEq_setP _ _ _ (fun p => rfl) (fun p => rfl) (fun p => rfl))
    have hunt : ∀ j, ¬ i = j →
        getP (setP (setP st.procs i
          (fun p => { p with lastReadyTime := st.currentTime })) i
          (fun p => { p with state := ProcessState.READY })) j = getP st.procs j := by
      intro j hj
      rw [getP_setP_ne _ _ _ _ hj, getP_setP_ne _ _ _ _ hj]
    refine ⟨coreEq_bursts _ _ ce h.bursts, fun j => coreEq_qpos _ _ ce j (h.qpos j),
      ?_, ?_, h.waitq_lt, h.run_lt, ?_, ce.1.trans h.len_eq, ?_, ?_, h.run_waitq,
      ?_, h.waitq_nodup, ?_⟩
    · intro k hk
      rw [coreEq_remaining _ _ ce k]
      rcases List.mem_append.mp hk with hk | hk
      · exact h.ready_pos k hk
      · rw [List.mem_singleton.mp hk]
        exact hq hcomp
    · intro k hk
      rcases List.mem_append.mp hk with hk | hk
      · exact h.ready_lt k hk
      · rw [List.mem_singleton.mp hk]
        exact hlt
    · show st.processArrivalIndex ≤ _
      rw [ce.1]
      exact h.arr_le
    · intro j hj
      have hj2 : st.processArrivalIndex ≤ j := hj
      rw [hunt j (by omega)]
      exact h.pending j hj2
    · intro r hr hmem
      rcases List.mem_append.mp hmem with hmem | hmem
      · exact h.run_ready r hr hmem
      · rw [List.mem_singleton.mp hmem] at hr
        exact hrun i hr rfl
    · intro k hk hmem
      rcases List.mem_append.mp hmem with hmem | hmem
      · exact h.waitq_ready k hk hmem
      · rw [List.mem_singleton.mp hmem] at hk
        exact hnw hk
    · refine List.Nodup.append h.ready_nodup (List.nodup_singleton _) ?_
      intro a ha hb
      rw [List.mem_singleton.mp hb] at ha
      exact hnr ha

/-- Footprint of `ioReadmission`: the arrival cursor, the I/O queue and the
running slot are untouched, the store changes only benignly, and the
ready queue either stays or gains exactly the re-admitted index. -/
theorem ioReadmission_footprint (st : SimState) (i : Nat) :
    (ioReadmission st i).processArrivalIndex = st.processArrivalIndex ∧
    (ioReadmission st i).ioQueue = st.ioQueue ∧
    (ioReadmission st i).runningProcess = st.runningProcess ∧
    CoreEq (ioReadmission st i).procs st.procs ∧
    ((ioReadmission st i).readyQueue = st.readyQueue ∨
      (ioReadmission st i).readyQueue = st.readyQueue ++ [i]) := by
  by_cases hcomp : (getP st.procs i).isComplete = true
  · have heq : ioReadmission st i = st := by
      simp only [ioReadmission, if_pos hcomp]
    rw [heq]
    exact ⟨rfl, rfl, rfl, coreEq_refl _, Or.inl rfl⟩
  · have heq : ioReadmission st i =
        { st with
          procs := setP (setP st.procs i
              (fun p => { p with lastReadyTime := st.currentTime })) i
            (fun p => { p with state := ProcessState.READY })
          readyQueue := st.readyQueue ++ [i]
          stateTransitions := st.stateTransitions ++
            [⟨st.currentTime, (getP st.procs i).pid,
              ProcessState.WAITING, ProcessState.READY⟩] } := by
      simp only [ioReadmission, if_neg hcomp]
      rfl
    rw [heq]
    refine ⟨rfl, rfl, rfl, ?_, Or.inr rfl⟩
    exact coreEq_trans _ _ _
      (coreEq_setP _ _ _ (fun p => rfl) (fun p => rfl) (fun p => rfl))
      (coreEq_setP _ _ _ (fun p => rfl) (fun p => rfl) (fun p => rfl))

/-- The fold re-admitting all completed I/O processes preserves the
invariant. -/
theorem foldl_ioReadmission_hinv (procs0 : List PCB) :
    ∀ (cs : List Nat) (st : SimState), HInv procs0 st →
      (∀ i ∈ cs, i < st.processArrivalIndex) →
      (∀ i ∈ cs, QPos (getP st.procs i)) →
      (∀ i ∈ cs, i ∉ st.readyQueue) →
      (∀ i ∈ cs, i ∉ st.ioQueue.map Prod.fst) →
      cs.Nodup →
      (∀ r, st.runningProcess = some r → r ∉ cs) →
      HInv procs0 (cs.foldl ioReadmission st) := by
  intro cs
  induction cs with
  | nil => intro st h _ _ _ _ _ _; exact h
  | cons i cs ih =>
    intro st h h1 h2 h3 h4 h5 h6
    obtain ⟨f1, f2, f3, f4, f5⟩ := ioReadmission_footprint st i
    refine ih (ioReadmission st i)
      (ioReadmission_hinv procs0 st i h (h1 i (List.mem_cons_self i cs))
        (h2 i (List.mem_cons_self i cs)) (h3 i (List.mem_cons_self i cs))
        (h4 i (List.mem_cons_self i cs))
        (fun r hr hri => (h6 r hr) (by rw [hri]; exact List.mem_cons_self i cs)))
      ?_ ?_ ?_ ?_ (List.Nodup.of_cons h5) ?_
    · intro k hk
      rw [f1]
      exact h1 k (List.mem_cons_of_mem i hk)
    · intro k hk
      exact coreEq_qpos _ _ f4 k (h2 k (List.mem_cons_of_mem i hk))
    · intro k hk
      rcases f5 with f5 | f5 <;> rw [f5]
      · exact h3 k (List.mem_cons_of_mem i hk)
      · intro hmem
        rcases List.mem_append.mp hmem with hmem | hmem
        · exact h3 k (List.mem_cons_of_mem i hk) hmem
        · rw [List.mem_singleton.mp hmem] at hk
          exact (List.nodup_cons.mp h5).1 hk
    · intro k hk
      rw [f2]
      exact h4 k (List.mem_cons_of_mem i hk)
    · intro r hr
      rw [f3] at hr
      exact fun hmem => (h6 r hr) (List.mem_cons_of_mem i hmem)

/-- Step 2 (`ioCompletionPhase`) preserves the invariant. -/
theorem ioCompletionPhase_hinv (procs0 : List PCB) (s : SimState)
    (h : HInv procs0 s) : HInv procs0 (ioCompletionPhase s) := by
  obtain ⟨t1, t2, t3, t4, t5, t6⟩ := ioQueueTick_spec s.ioQueue s.procs h.bursts
  have hmemC : ∀ i ∈ (ioQueueTick s.procs s.ioQueue).2.2,
      i ∈ s.ioQueue.map Prod.fst := by
    intro i hi
    exact t5.mem_iff.mp (List.mem_append_right _ hi)
  have hmemK : ∀ i ∈ ((ioQueueTick s.procs s.ioQueue).2.1).map Prod.fst,
      i ∈ s.ioQueue.map Prod.fst := by
    intro i hi
    exact t5.mem_iff.mp (List.mem_append_left _ hi)
  have hnd : (((ioQueueTick s.procs s.ioQueue).2.1).map Prod.fst ++
      (ioQueueTick s.procs s.ioQueue).2.2).Nodup :=
    t5.nodup_iff.mpr h.waitq_nodup
  rw [List.nodup_append] at hnd
  obtain ⟨hndK, hndC, hdisj⟩ := hnd
  have hltO : ∀ i ∈ s.ioQueue.map Prod.fst, i < s.processArrivalIndex := by
    intro i hi
    obtain ⟨e, he, hfst⟩ := List.mem_map.mp hi
    rw [← hfst]
    exact h.waitq_lt e he
  have hmid : HInv procs0
      { s with
        procs := (ioQueueTick s.procs s.ioQueue).1
        ioQueue := (ioQueueTick s.procs s.ioQueue).2.1 } := by
    refine ⟨burstsPos_of_pointwise _ _ t2 h.bursts, fun j => t4 j (h.qpos j),
      ?_, h.ready_lt, ?_, h.run_lt, ?_, t1.trans h.len_eq, ?_, h.run_ready,
      ?_, ?_, hndK, h.ready_nodup⟩
    · intro i hi
      rw [t3 i (fun hmem => h.waitq_ready i hmem hi)]
      exact h.ready_pos i hi
    · intro e he
      have : e.1 ∈ s.ioQueue.map Prod.fst :=
        hmemK e.1 (List.mem_map_of_mem Prod.fst he)
      exact hltO e.1 this
    · show s.processArrivalIndex ≤ _
      rw [t1]
      exact h.arr_le
    · intro j hj
      have hj2 : s.processArrivalIndex ≤ j := hj
      rw [t3 j (fun hmem => by have := hltO j hmem; omega)]
      exact h.pending j hj2
    · intro r hr hmem
      exact h.run_waitq r hr (hmemK r hmem)
    · intro k hk
      exact h.waitq_ready k (hmemK k hk)
  show HInv procs0 ((ioQueueTick s.procs s.ioQueue).2.2.foldl ioReadmission
    { s with
      procs := (ioQueueTick s.procs s.ioQueue).1
      ioQueue := (ioQueueTick s.procs s.ioQueue).2.1 })
  refine foldl_ioReadmission_hinv procs0 _ _ hmid ?_ ?_ ?_ ?_ hndC ?_
  · intro i hi
    exact hltO i (hmemC i hi)
  · intro i hi
    exact t6 i hi
  · intro i hi
    exact h.waitq_ready i (hmemC i hi)
  · intro i hi hk
    exact hdisj hk hi
  · intro r hr hc
    exact h.run_waitq r hr (hmemC r hc)

theorem executeTick_bursts (p : PCB) :
    ((p.executeTick).1).burstSequence = p.burstSequence := by
  unfold PCB.executeTick
  dsimp only
  split <;> rfl

theorem executeTick_qpos (p : PCB) (hq : QPos p)
    (hd : ¬ (p.executeTick).2 = true) : QPos ((p.executeTick).1) := by
  unfold PCB.executeTick at hd ⊢
  dsimp only at hd ⊢
  by_cases hpos : p.remainingBurstTime > 0
  · rw [if_pos hpos] at hd ⊢
    intro hc
    have hc2 : ¬ p.isComplete = true := hc
    have h1 := hq hc2
    simp only [beq_iff_eq] at hd
    show (1 : Int) ≤ p.remainingBurstTime - 1
    omega
  · rw [if_neg hpos] at hd ⊢
    intro hc
    exact hq hc

theorem getP_setP_point (procs : List PCB) (i j : Nat) (q : PCB)
    (hb : q.burstSequence = (getP procs i).burstSequence) :
    (getP (setP procs i (fun _ => q)) j).burstSequence =
      (getP procs j).burstSequence := by
  rw [getP_setP]
  split
  · rename_i hc
    rw [← hc.1]
    exact hb
  · rfl

theorem qpos_setP_point (procs : List PCB) (i : Nat) (q : PCB)
    (hq : QPos q) (hall : ∀ j, QPos (getP procs j)) (j : Nat) :
    QPos (getP (setP procs i (fun _ => q)) j) := by
  rw [getP_setP]
  split
  · exact hq
  · exact hall j

/-- HRRN never preempts: steps 4–6 are the identity for it. -/
theorem hrrn_preemption_eq (cst : Int) (s : SimState) :
    preemptionPhase hrrnSpec cst s = s := by
  cases hr : s.runningProcess with
  | none =>
    simp only [preemptionPhase, hr]
    rw [← hr]
  | some r =>
    simp [preemptionPhase, hrrnSpec, hr]
    rw [← hr]

/-- Step 7 (selection) preserves the invariant for the HRRN algorithm. -/
theorem selectionPhase_hrrn_hinv (procs0 : List PCB) (s : SimState)
    (h : HInv procs0 s) : HInv procs0 (selectionPhase hrrnSpec s) := by
  unfold selectionPhase
  cases hrun : s.runningProcess with
  | some r => exact h
  | none =>
    by_cases hempty : s.readyQueue.isEmpty = true
    · rw [if_pos hempty]
      exact h
    · rw [if_neg hempty]
      dsimp only [hrrnSpec]
      have hperm0 : (sortQueueBy (responseRatioLe s.currentTime) s.procs
          s.readyQueue).Perm s.readyQueue := jsSort_perm _ _
      cases hsq : sortQueueBy (responseRatioLe s.currentTime) s.procs s.readyQueue with
      | nil =>
        refine ⟨h.bursts, h.qpos, ?_, ?_, h.waitq_lt, ?_, h.arr_le, h.len_eq,
          h.pending, ?_, ?_, ?_, h.waitq_nodup, List.nodup_nil⟩
        · intro i hi
          exact absurd (show i ∈ ([] : List Nat) from hi) (by simp)
        · intro i hi
          exact absurd (show i ∈ ([] : List Nat) from hi) (by simp)
        · intro r' hr'
          exact Option.noConfusion (show (none : Option Nat) = some r' from hr')
        · intro r' hr'
          exact Option.noConfusion (show (none : Option Nat) = some r' from hr')
        · intro r' hr'
          exact Option.noConfusion (show (none : Option Nat) = some r' from hr')
        · intro k _ hk
          exact absurd (show k ∈ ([] : List Nat) from hk) (by simp)
      | cons r rest =>
        rw [hsq] at hperm0
        have hmr : r ∈ s.readyQueue :=
          hperm0.mem_iff.mp (List.mem_cons_self r rest)
        have hsub : ∀ k ∈ rest, k ∈ s.readyQueue := fun k hk =>
          hperm0.mem_iff.mp (List.mem_cons_of_mem r hk)
        have hndp : (r :: rest).Nodup := hperm0.nodup_iff.mpr h.ready_nodup
        have hrlt : r < s.processArrivalIndex := h.ready_lt r hmr
        have ce : CoreEq (setP s.procs r (fun p =>
            { p with
              state := ProcessState.RUNNING
              responseTime := if p.responseTime == -1 then
                s.currentTime - p.arrivalTime else p.responseTime })) s.procs :=
          coreEq_setP _ _ _ (fun p => rfl) (fun p => rfl) (fun p => rfl)
        refine ⟨coreEq_bursts _ _ ce h.bursts, fun j => coreEq_qpos _ _ ce j (h.qpos j),
          ?_, ?_, h.waitq_lt, ?_, ?_, ce.1.trans h.len_eq, ?_, ?_, ?_, ?_,
          h.waitq_nodup, (List.nodup_cons.mp hndp).2⟩
        · intro k hk
          rw [coreEq_remaining _ _ ce k]
          exact h.ready_pos k (hsub k hk)
        · intro k hk
          exact h.ready_lt k (hsub k hk)
        · intro r' hr'
          have h2 : r = r' := Option.some.inj hr'
          rw [← h2]
          exact hrlt
        · show s.processArrivalIndex ≤ _
          rw [ce.1]
          exact h.arr_le
        · intro j hj
          have hj2 : s.processArrivalIndex ≤ j := hj
          rw [getP_setP_ne _ _ _ _ (by omega)]
          exact h.pending j hj2
        · intro r' hr' hmem
          have h2 : r = r' := Option.some.inj hr'
          rw [← h2] at hmem
          exact (List.nodup_cons.mp hndp).1 hmem
        · intro r' hr' hmem
          have h2 : r = r' := Option.some.inj hr'
          rw [← h2] at hmem
          exact h.waitq_ready r hmem hmr
        · intro k hk hmem
          exact h.waitq_ready k hk (hsub k hmem)

/-- Behaviour of step 8 with a running process: the ready queue and the
arrival cursor are untouched, the store changes only at the running
index (keeping burst sequences and `QPos`), and either the process keeps
running with the I/O queue unchanged, or it is dispatched away (to
termination, the I/O queue, or its next CPU burst) with the running slot
cleared. -/
theorem executePhase_some_facts (cst : Int) (s : SimState) (r : Nat)
    (hrun : s.runningProcess = some r) (hrlen : r < s.procs.length)
    (hA : BurstsPos s.procs) (hq : ∀ j, QPos (getP s.procs j)) :
    (executePhase cst s).readyQueue = s.readyQueue ∧
    (executePhase cst s).processArrivalIndex = s.processArrivalIndex ∧
    (executePhase cst s).procs.length = s.procs.length ∧
    (∀ j, ¬ r = j → getP (executePhase cst s).procs j = getP s.procs j) ∧
    (∀ j, (getP (executePhase cst s).procs j).burstSequence =
      (getP s.procs j).burstSequence) ∧
    (∀ j, QPos (getP (executePhase cst s).procs j)) ∧
    ((executePhase cst s).ioQueue = s.ioQueue ∧
        (executePhase cst s).runningProcess = some r ∨
      (executePhase cst s).runningProcess = none ∧
        ((executePhase cst s).ioQueue = s.ioQueue ∨
          ∃ v, (executePhase cst s).ioQueue = s.ioQueue ++ [(r, v)])) := by
  unfold executePhase
  rw [hrun]
  dsimp only [ioQueueEnqueue]
  by_cases hdone : ((getP s.procs r).executeTick).2 = true
  · rw [if_pos hdone]
    have hx : getP (setP s.procs r (fun _ => ((getP s.procs r).executeTick).1)) r =
        ((getP s.procs r).executeTick).1 := getP_setP_self s.procs r _ hrlen
    rw [hx]
    have hx2 : getP (setP (setP s.procs r (fun _ => ((getP s.procs r).executeTick).1))
        r (fun _ => (((getP s.procs r).executeTick).1.moveToNextBurst).1)) r =
        (((getP s.procs r).executeTick).1.moveToNextBurst).1 :=
      getP_setP_self _ _ _ (by rw [setP_length]; exact hrlen)
    have hbE : ∀ b ∈ (((getP s.procs r).executeTick).1).burstSequence, 1 ≤ b.duration := by
      rw [executeTick_bursts]
      exact burstsPos_getP s.procs hA r
    have hP2 : ∀ j, QPos (getP (setP (setP s.procs r
        (fun _ => ((getP s.procs r).executeTick).1)) r
        (fun _ => (((getP s.procs r).executeTick).1.moveToNextBurst).1)) j) := by
      intro j
      rw [getP_setP]
      split
      · exact moveToNext_qpos _ hbE
      · rename_i hc
        rw [getP_setP]
        split
        · rename_i hc2
          refine absurd ⟨hc2.1, ?_⟩ hc
          rw [setP_length]
          exact hc2.2
        · exact hq j
    have hb2 : ∀ j, (getP (setP (setP s.procs r
        (fun _ => ((getP s.procs r).executeTick).1)) r
        (fun _ => (((getP s.procs r).executeTick).1.moveToNextBurst).1)) j).burstSequence =
        (getP s.procs j).burstSequence := by
      intro j
      refine (getP_setP_point _ r j _
        ((moveToNext_bursts _).trans (congrArg PCB.burstSequence hx).symm)).trans ?_
      exact getP_setP_point s.procs r j _ (executeTick_bursts _)
    by_cases hmv : (((getP s.procs r).executeTick).1.moveToNextBurst).2 = true
    · rw [hmv, Bool.not_true, if_neg (by decide)]
      rw [hx2]
      by_cases hio2 : (((((getP s.procs r).executeTick).1.moveToNextBurst).1).getCurrentBurstType ==
          some BurstType.IOB) = true
      · rw [if_pos hio2]
        dsimp only
        refine ⟨rfl, rfl, ?_, ?_, ?_, ?_, ?_⟩
        · rw [setP_length, setP_length, setP_length]
        · intro j hj
          rw [getP_setP_ne _ _ _ _ hj, getP_setP_ne _ _ _ _ hj, getP_setP_ne _ _ _ _ hj]
        · intro j
          refine (getP_setP_bursts _ r j
            (fun p => { p with state := ProcessState.WAITING }) (fun p => rfl)).trans ?_
          exact hb2 j
        · intro j
          exact qpos_setP _ r (fun p => { p with state := ProcessState.WAITING })
            (fun p => rfl) (fun p => rfl) (fun p => rfl) j (hP2 j)
        · refine Or.inr ⟨rfl, Or.inr ⟨_, rfl⟩⟩
      · rw [if_neg hio2]
        dsimp only
        refine ⟨rfl, rfl, ?_, ?_, ?_, hP2, Or.inr ⟨rfl, Or.inl rfl⟩⟩
        · rw [setP_length, setP_length]
        · intro j hj
          rw [getP_setP_ne _ _ _ _ hj, getP_setP_ne _ _ _ _ hj]
        · exact hb2
    · have hmf : (((getP s.procs r).executeTick).1.moveToNextBurst).2 = false := by
        cases hb : (((getP s.procs r).executeTick).1.moveToNextBurst).2 with
        | false => rfl
        | true => exact absurd hb hmv
      rw [hmf, Bool.not_false, if_pos rfl]
      dsimp only
      refine ⟨rfl, rfl, ?_, ?_, ?_, ?_, Or.inr ⟨rfl, Or.inl rfl⟩⟩
      · rw [setP_length, setP_length, setP_length]
      · intro j hj
        rw [getP_setP_ne _ _ _ _ hj, getP_setP_ne _ _ _ _ hj, getP_setP_ne _ _ _ _ hj]
      · intro j
        refine (getP_setP_bursts _ r j
          (fun p => { p with
            completionTime := s.currentTime + 1
            state := ProcessState.TERMINATED }) (fun p => rfl)).trans ?_
        exact hb2 j
      · intro j
        exact qpos_setP _ r
          (fun p => { p with
            completionTime := s.currentTime + 1
            state := ProcessState.TERMINATED })
          (fun p => rfl) (fun p => rfl) (fun p => rfl) j (hP2 j)
  · rw [if_neg hdone]
    dsimp only
    refine ⟨rfl, rfl, setP_length _ _ _, ?_, ?_, ?_, Or.inl ⟨rfl, rfl⟩⟩
    · intro j hj
      exact getP_setP_ne _ _ _ _ hj
    · intro j
      exact getP_setP_point s.procs r j _ (executeTick_bursts _)
    · intro j
      exact qpos_setP_point s.procs r _ (executeTick_qpos _ (hq r) hdone) hq j

/-- Step 8 (`executePhase`) preserves the invariant. -/
theorem executePhase_hinv (procs0 : List PCB) (cst : Int) (s : SimState)
    (h : HInv procs0 s) : HInv procs0 (executePhase cst s) := by
  cases hrun : s.runningProcess with
  | none =>
    have heq : executePhase cst s = { s with ganttChart := s.ganttChart ++
        [⟨s.currentTime, GanttType.IDLE, none, none⟩] } := by
      unfold executePhase
      rw [hrun]
    rw [heq]
    exact ⟨h.bursts, h.qpos, h.ready_pos, h.ready_lt, h.waitq_lt, h.run_lt,
      h.arr_le, h.len_eq, h.pending, h.run_ready, h.run_waitq, h.waitq_ready,
      h.waitq_nodup, h.ready_nodup⟩
  | some r =>
    have hrlt := h.run_lt r hrun
    have hrlen : r < s.procs.length := lt_of_lt_of_le hrlt h.arr_le
    obtain ⟨f1, f2, f3, f4, f5, f6, f7⟩ :=
      executePhase_some_facts cst s r hrun hrlen h.bursts h.qpos
    have hnr : r ∉ s.readyQueue := h.run_ready r hrun
    have hnw : r ∉ s.ioQueue.map Prod.fst := h.run_waitq r hrun
    refine ⟨burstsPos_of_pointwise _ _ f5 h.bursts, f6, ?_, ?_, ?_, ?_, ?_,
      f3.trans h.len_eq, ?_, ?_, ?_, ?_, ?_, ?_⟩
    · intro i hi
      rw [f1] at hi
      rw [f4 i (fun hri => hnr (by rw [hri]; exact hi))]
      exact h.ready_pos i hi
    · intro i hi
      rw [f1] at hi
      rw [f2]
      exact h.ready_lt i hi
    · intro e he
      rw [f2]
      rcases f7 with ⟨hioc, _⟩ | ⟨_, hioc | ⟨v, hioc⟩⟩ <;> rw [hioc] at he
      · exact h.waitq_lt e he
      · exact h.waitq_lt e he
      · rcases List.mem_append.mp he with he | he
        · exact h.waitq_lt e he
        · rw [List.mem_singleton.mp he]
          exact hrlt
    · intro r' hr'
      rw [f2]
      rcases f7 with ⟨_, hr2⟩ | ⟨hnone, _⟩
      · have h2 : r = r' := Option.some.inj (hr2.symm.trans hr')
        rw [← h2]
        exact hrlt
      · rw [hnone] at hr'
        exact Option.noConfusion hr'
    · show _ ≤ _
      rw [f2, f3]
      exact h.arr_le
    · intro j hj
      rw [f2] at hj
      rw [f4 j (by omega)]
      exact h.pending j hj
    · intro r' hr'
      rw [f1]
      rcases f7 with ⟨_, hr2⟩ | ⟨hnone, _⟩
      · have h2 : r = r' := Option.some.inj (hr2.symm.trans hr')
        rw [← h2]
        exact hnr
      · rw [hnone] at hr'
        exact Option.noConfusion hr'
    · intro r' hr'
      rcases f7 with ⟨hioc, hr2⟩ | ⟨hnone, _⟩
      · have h2 : r = r' := Option.some.inj (hr2.symm.trans hr')
        rw [hioc, ← h2]
        exact hnw
      · rw [hnone] at hr'
        exact Option.noConfusion hr'
    · intro k hk
      rw [f1]
      rcases f7 with ⟨hioc, _⟩ | ⟨_, hioc | ⟨v, hioc⟩⟩ <;> rw [hioc] at hk
      · exact h.waitq_ready k hk
      · exact h.waitq_ready k hk
      · rw [List.map_append] at hk
        rcases List.mem_append.mp hk with hk | hk
        · exact h.waitq_ready k hk
        · rw [List.mem_singleton.mp hk]
          exact hnr
    · rcases f7 with ⟨hioc, _⟩ | ⟨_, hioc | ⟨v, hioc⟩⟩ <;> rw [hioc]
      · exact h.waitq_nodup
      · exact h.waitq_nodup
      · rw [List.map_append]
        refine List.Nodup.append h.waitq_nodup (List.nodup_singleton _) ?_
        intro a ha hb
        rw [List.mem_singleton.mp hb] at ha
        exact hnw ha
    · rw [f1]
      exact h.ready_nodup

/-- `ReadyQueue.incrementWaitTime` only changes `waitTime`s of queued
processes. -/
theorem incrementWait_facts :
    ∀ (q : List Nat) (procs : List PCB),
      (∀ j, j ∉ q → getP (readyIncrementWaitTime procs q) j = getP procs j) ∧
      CoreEq (readyIncrementWaitTime procs q) procs := by
  intro q
  induction q with
  | nil => exact fun procs => ⟨fun j _ => rfl, coreEq_refl _⟩
  | cons i t ih =>
    intro procs
    obtain ⟨u, ce⟩ := ih (setP procs i (fun p => { p with waitTime := p.waitTime + 1 }))
    refine ⟨?_, coreEq_trans _ _ _ ce
      (coreEq_setP _ _ _ (fun p => rfl) (fun p => rfl) (fun p => rfl))⟩
    intro j hj
    have hj1 : j ∉ t := fun hm => hj (List.mem_cons_of_mem i hm)
    have hj2 : ¬ i = j := fun he => hj (by rw [← he]; exact List.mem_cons_self i t)
    exact (u j hj1).trans (getP_setP_ne _ _ _ _ hj2)

/-- The wait-time bump and the time advance at the end of an iteration
preserve the invariant. -/
theorem post_exec_hinv (procs0 : List PCB) (s5 : SimState) (h : HInv procs0 s5)
    (t : Int) :
    HInv procs0
      { s5 with
        procs := readyIncrementWaitTime s5.procs s5.readyQueue
        currentTime := t } := by
  obtain ⟨u, ce⟩ := incrementWait_facts s5.readyQueue s5.procs
  refine ⟨coreEq_bursts _ _ ce h.bursts, fun j => coreEq_qpos _ _ ce j (h.qpos j),
    ?_, h.ready_lt, h.waitq_lt, h.run_lt, ?_, ce.1.trans h.len_eq, ?_,
    h.run_ready, h.run_waitq, h.waitq_ready, h.waitq_nodup, h.ready_nodup⟩
  · intro i hi
    rw [coreEq_remaining _ _ ce i]
    exact h.ready_pos i hi
  · show _ ≤ _
    rw [ce.1]
    exact h.arr_le
  · intro j hj
    have hj2 : s5.processArrivalIndex ≤ j := hj
    rw [u j (fun hm => by have := h.ready_lt j hm; omega)]
    exact h.pending j hj2

/-- One full iteration of the HRRN engine loop preserves the
invariant. -/
theorem simStep_hrrn_hinv (procs0 : List PCB)
    (hR : ∀ p ∈ procs0, 1 ≤ p.remainingBurstTime) (cst : Int) (s : SimState)
    (h : HInv procs0 s) : HInv procs0 (simStep hrrnSpec cst s) := by
  have h2 := ioCompletionPhase_hinv procs0 _
    (admitArrivals_hinv procs0 hR s.procs.length s h)
  simp only [simStep]
  by_cases hcs : (ioCompletionPhase (admitArrivals s.procs.length s)).contextSwitchRemaining > 0
  · rw [if_pos hcs]
    exact ⟨h2.bursts, h2.qpos, h2.ready_pos, h2.ready_lt, h2.waitq_lt, h2.run_lt,
      h2.arr_le, h2.len_eq, h2.pending, h2.run_ready, h2.run_waitq, h2.waitq_ready,
      h2.waitq_nodup, h2.ready_nodup⟩
  · rw [if_neg hcs]
    rw [hrrn_preemption_eq]
    have h5 := executePhase_hinv procs0 cst _ (selectionPhase_hrrn_hinv procs0 _ h2)
    exact post_exec_hinv procs0 _ h5 _

/-- The invariant holds at the top of every iteration of the HRRN
loop. -/
theorem hinv_iterate (ps : List PCB) (cst : Int) (hA : BurstsPos ps)
    (hR : ∀ p ∈ ps, 1 ≤ p.remainingBurstTime) :
    ∀ n : Nat, HInv (jsSort arrivalOnlyLe ps)
      ((simStep hrrnSpec cst)^[n] (initState ps)) := by
  have hR0 : ∀ p ∈ jsSort arrivalOnlyLe ps, 1 ≤ p.remainingBurstTime :=
    fun p hp => hR p ((mem_jsSort _ _ _).mp hp)
  intro n
  induction n with
  | zero => exact hinv_init ps hA hR
  | succ n ih =>
    rw [Function.iterate_succ_apply']
    exact simStep_hrrn_hinv _ hR0 cst _ ih

/-- The engine state passed to step 7 (selection) in an HRRN iteration:
steps 1–6 applied to the state at the top of the loop.  This is the
state over which `sortByResponseRatio` orders the ready queue. -/
def hrrnPreSelect (cst : Int) (s0 : SimState) : SimState :=
  preemptionPhase hrrnSpec cst (ioCompletionPhase (admitArrivals s0.procs.length s0))

/-- C9: whenever the HRRN engine orders the ready queue by response
ratio (step 7 of any reachable iteration, over any workload whose burst
durations are at least 1 and whose processes start with a positive
remaining time), every process in the queue being sorted has
`remainingBurstTime ≥ 1`, so the divisor of the ratio
`(t − arrival + remaining) / remaining` is nonzero: division by zero is
unreachable. -/
theorem hrrn_ready_queue_divisor_nonzero (ps : List PCB) (cst : Int) (n : Nat)
    (hA : BurstsPos ps) (hR : ∀ p ∈ ps, 1 ≤ p.remainingBurstTime) :
    ∀ i ∈ sortQueueBy
        (responseRatioLe (hrrnPreSelect cst
          ((simStep hrrnSpec cst)^[n] (initState ps))).currentTime)
        (hrrnPreSelect cst ((simStep hrrnSpec cst)^[n] (initState ps))).procs
        (hrrnPreSelect cst ((simStep hrrnSpec cst)^[n] (initState ps))).readyQueue,
      1 ≤ (getP (hrrnPreSelect cst
          ((simStep hrrnSpec cst)^[n] (initState ps))).procs i).remainingBurstTime ∧
      (((getP (hrrnPreSelect cst
          ((simStep hrrnSpec cst)^[n] (initState ps))).procs i).remainingBurstTime :
        Int) : ℚ) ≠ 0 := by
  have hpre : HInv (jsSort arrivalOnlyLe ps)
      (hrrnPreSelect cst ((simStep hrrnSpec cst)^[n] (initState ps))) := by
    unfold hrrnPreSelect
    rw [hrrn_preemption_eq]
    exact ioCompletionPhase_hinv _ _
      (admitArrivals_hinv _ (fun p hp => hR p ((mem_jsSort _ _ _).mp hp)) _ _
        (hinv_iterate ps cst hA hR n))
  intro i hi
  have hi2 : i ∈ (hrrnPreSelect cst
      ((simStep hrrnSpec cst)^[n] (initState ps))).readyQueue :=
    (mem_jsSort _ _ _).mp hi
  have h1 := hpre.ready_pos i hi2
  exact ⟨h1, Int.cast_ne_zero.mpr (by omega)⟩

instance (procs : List PCB) : Decidable (BurstsPos procs) := by
  unfold BurstsPos
  infer_instance

theorem hrrn_ready_queue_divisor_nonzero_witness :
    1 ≤ (getP (hrrnPreSelect 0
        ((simStep hrrnSpec 0)^[0] (initState s1Workload))).procs 0).remainingBurstTime ∧
    (((getP (hrrnPreSelect 0
        ((simStep hrrnSpec 0)^[0] (initState s1Workload))).procs 0).remainingBurstTime :
      Int) : ℚ) ≠ 0 :=
  hrrn_ready_queue_divisor_nonzero s1Workload 0 0 (by decide) (by decide) 0 (by decide)

/-- C4: the simulation function is deterministic.  For every discipline
closure handed to the engine, every context-switch configuration and
every pair of identical input workloads, two runs produce identical raw
timelines, state-transition lists, final process records and metrics.
In this embedding the engine is a pure function of its inputs — there is
no randomness, no clock and no dependence on unordered iteration; the
ready-queue comparators totally order entries via their arrival/pid
tie-break chain and the sort is the stable insertion of a JS `sort`. -/
theorem runSchedulerSimulation_deterministic (alg : AlgSpec) (cst : Int)
    (ps1 ps2 : List PCB) (h : ps1 = ps2) :
    (runSchedulerSimulation alg cst ps1).rawGanttChart =
      (runSchedulerSimulation alg cst ps2).rawGanttChart ∧
    (runSchedulerSimulation alg cst ps1).stateTransitions =
      (runSchedulerSimulation alg cst ps2).stateTransitions ∧
    (runSchedulerSimulation alg cst ps1).processes =
      (runSchedulerSimulation alg cst ps2).processes ∧
    (runSchedulerSimulation alg cst ps1).metrics =
      (runSchedulerSimulation alg cst ps2).metrics := by
  subst h
  exact ⟨rfl, rfl, rfl, rfl⟩

theorem runSchedulerSimulation_deterministic_witness :
    (runSchedulerSimulation fcfsSpec 0 s1Workload).rawGanttChart =
      (runSchedulerSimulation fcfsSpec 0 s1Workload).rawGanttChart ∧
    (runSchedulerSimulation fcfsSpec 0 s1Workload).stateTransitions =
      (runSchedulerSimulation fcfsSpec 0 s1Workload).stateTransitions ∧
    (runSchedulerSimulation fcfsSpec 0 s1Workload).processes =
      (runSchedulerSimulation fcfsSpec 0 s1Workload).processes ∧
    (runSchedulerSimulation fcfsSpec 0 s1Workload).metrics =
      (runSchedulerSimulation fcfsSpec 0 s1Workload).metrics :=
  runSchedulerSimulation_deterministic fcfsSpec 0 s1Workload s1Workload rfl
